import Mathlib

/-!
Verification of the SparseWorld planning/sensing core
(Environment.py, Planner.py), shallowly embedded in Lean 4.

Conventions of the embedding:
* Continuous coordinates (numpy float arrays of length 2) become `ℚ × ℚ`.
* Grid indices (integer numpy arrays / tuples) become `ℤ × ℤ`.
* `np.inf`-valued costs live in `WithTop ℚ`.
* Functions injected from outside the core (the motion-model contract,
  `np.linalg.norm`, `np.cos`, `np.sin`, `np.sqrt`) are parameters of the
  embedded definitions.
* Fallible operations (python code that would raise) return `Option`.
* `Map.py` (the occupancy grid) is not part of the given sources; the few
  pieces of it the planner uses (`raytrace`, the raw cell values, the
  world/grid conversions) are modelled from the spec and marked as such.
-/

/-- A continuous 2-D point (a numpy array of two floats in the source). -/
abbrev Point : Type := ℚ × ℚ

/-- A grid cell index (a tuple / integer numpy array in the source). -/
abbrev Cell : Type := ℤ × ℤ

/-- A possibly infinite edge or path cost (`np.inf` is `⊤`). -/
abbrev Cost : Type := WithTop ℚ

/-- Environment.py: `Obstacle = namedtuple("Obstacle", ["top","left","bottom","right"])`. -/
structure Obstacle where
  top : ℚ
  left : ℚ
  bottom : ℚ
  right : ℚ
deriving DecidableEq

/-- Environment.py: `RayTraceResult = namedtuple("RayTraceResult", ["collide","endpoint"])`. -/
structure RayTraceResult where
  collide : Bool
  endpoint : Point
deriving DecidableEq

/-- Environment.py: `ScanResult = namedtuple("ScanResult", ["angle","range"])`. -/
structure ScanResult where
  angle : ℚ
  range : ℚ
deriving DecidableEq

/-- The external motion-model contract consumed by `Environment`:
a pure step function and the projection from state to position.
(The concrete motion models live outside the given core sources.) -/
structure MotionModel (σ ι : Type) where
  step : σ → ι → Bool → σ
  state_2_position : σ → Point

/-- Environment.py, class `Environment`: world size, append-only obstacle
list, and the agent state.  The motion model is passed explicitly to the
operations that need it (the source stores it in `self._motion_model`). -/
structure Env (σ : Type) where
  env_size : Point
  obstacles : List Obstacle
  agent_state : σ
deriving DecidableEq

/-- Environment.py `add_obstacle`: accept and append only if all four
edges lie inside the world bounds; otherwise reject without mutation. -/
def add_obstacle {σ : Type} (E : Env σ) (obs : Obstacle) : Bool × Env σ :=
  if 0 ≤ obs.left ∧ obs.right ≤ E.env_size.1 ∧ 0 ≤ obs.bottom ∧ obs.top ≤ E.env_size.2 then
    (true, { E with obstacles := E.obstacles ++ [obs] })
  else
    (false, E)

/-- Environment.py `position_out_of_bounds`. -/
def position_out_of_bounds {σ : Type} (E : Env σ) (pos : Point) : Bool :=
  decide (pos.1 < 0 ∨ pos.1 > E.env_size.1 ∨ pos.2 < 0 ∨ pos.2 > E.env_size.2)

/-- Environment.py `position_in_obstacle` (note: inclusive of the edges). -/
def position_in_obstacle (pos : Point) (obs : Obstacle) : Bool :=
  decide (obs.left ≤ pos.1 ∧ pos.1 ≤ obs.right ∧ obs.bottom ≤ pos.2 ∧ pos.2 ≤ obs.top)

/-- Environment.py `state_out_of_bounds`. -/
def state_out_of_bounds {σ ι : Type} (M : MotionModel σ ι) (E : Env σ) (s : σ) : Bool :=
  position_out_of_bounds E (M.state_2_position s)

/-- Environment.py `state_in_obstacles`: true iff the projected position
of `s` lies in some stored obstacle. -/
def state_in_obstacles {σ ι : Type} (M : MotionModel σ ι) (E : Env σ) (s : σ) : Bool :=
  E.obstacles.any (fun obs => position_in_obstacle (M.state_2_position s) obs)

/-- Environment.py `agent_take_step`: ask the motion model for a candidate
next state, commit it only when in bounds and in no obstacle; otherwise
report failure and change nothing. -/
def agent_take_step {σ ι : Type} (M : MotionModel σ ι) (E : Env σ) (inp : ι) (braking : Bool) :
    Bool × Env σ :=
  let new_state := M.step E.agent_state inp braking
  if state_out_of_bounds M E new_state = false ∧ state_in_obstacles M E new_state = false then
    (true, { E with agent_state := new_state })
  else
    (false, E)

/-- Environment.py property `agent_position`. -/
def agent_position {σ ι : Type} (M : MotionModel σ ι) (E : Env σ) : Point :=
  M.state_2_position E.agent_state

/-- Environment.py `ray_intersect_obstacle`: the slab ray/AABB test.
The per-axis loop of the source is unrolled for the two coordinates,
with the axis-0 iteration first, exactly as `range(p0.shape[0])` runs it.
The final branch (both direction components zero and the origin strictly
inside both slabs) is unreachable: such an origin lies inside the
obstacle, which the first guard has already excluded.  (There the python
would produce `tmin = -inf`, `tmax = inf` and a NaN endpoint.) -/
def ray_intersect_obstacle (p0 p1 : Point) (obs : Obstacle) : RayTraceResult :=
  let d : Point := (p1.1 - p0.1, p1.2 - p0.2)
  if position_in_obstacle p0 obs then { collide := false, endpoint := p0 }
  else
    if d.1 ≠ 0 then
      let t1 := (obs.left - p0.1) / d.1
      let t2 := (obs.right - p0.1) / d.1
      let tmin1 := min t1 t2
      let tmax1 := max t1 t2
      if d.2 ≠ 0 then
        let s1 := (obs.bottom - p0.2) / d.2
        let s2 := (obs.top - p0.2) / d.2
        let tmin := max tmin1 (min s1 s2)
        let tmax := min tmax1 (max s1 s2)
        if tmin < tmax ∧ 0 < tmax ∧ tmin < 1 then
          { collide := true, endpoint := (p0.1 + tmin * d.1, p0.2 + tmin * d.2) }
        else { collide := false, endpoint := p1 }
      else if p0.2 ≤ obs.bottom ∨ obs.top ≤ p0.2 then { collide := false, endpoint := p1 }
      else if tmin1 < tmax1 ∧ 0 < tmax1 ∧ tmin1 < 1 then
        { collide := true, endpoint := (p0.1 + tmin1 * d.1, p0.2 + tmin1 * d.2) }
      else { collide := false, endpoint := p1 }
    else if p0.1 ≤ obs.left ∨ obs.right ≤ p0.1 then { collide := false, endpoint := p1 }
    else if d.2 ≠ 0 then
      let s1 := (obs.bottom - p0.2) / d.2
      let s2 := (obs.top - p0.2) / d.2
      let tmin := min s1 s2
      let tmax := max s1 s2
      if tmin < tmax ∧ 0 < tmax ∧ tmin < 1 then
        { collide := true, endpoint := (p0.1 + tmin * d.1, p0.2 + tmin * d.2) }
      else { collide := false, endpoint := p1 }
    else if p0.2 ≤ obs.bottom ∨ obs.top ≤ p0.2 then { collide := false, endpoint := p1 }
    else { collide := true, endpoint := p0 }

/-- Environment.py `ray_intersect_obstacles`: collect the collision point
against every obstacle, in obstacle-list order, with no early exit. -/
def ray_intersect_obstacles {σ : Type} (E : Env σ) (p0 p1 : Point) : List Point :=
  E.obstacles.filterMap (fun obs =>
    let result := ray_intersect_obstacle p0 p1 obs
    if result.collide then some result.endpoint else none)

/-- `np.arange(start, stop, step)`, modelled by its documented semantics:
`⌈(stop - start)/step⌉` values `start + k·step` for positive `step`. -/
def arangeQ (start stop step : ℚ) : List ℚ :=
  (List.range (Int.ceil ((stop - start) / step)).toNat).map (fun k : ℕ => start + (k : ℚ) * step)

/-- `np.amin` on a list of rationals (0 on the empty list, on which the
source would raise; `scan_cone` only applies it to non-empty lists). -/
def aminQ : List ℚ → ℚ
  | [] => 0
  | x :: xs => xs.foldl min x

/-- Environment.py `scan_cone`.  The injected `co`/`si` model `np.cos` /
`np.sin`, and `sqrtf` models the square root inside `np.linalg.norm`
(applied to the squared Euclidean distance, which is rational). -/
def scan_cone {σ ι : Type} (M : MotionModel σ ι) (E : Env σ) (co si sqrtf : ℚ → ℚ)
    (amin amax max_range res : ℚ) : List ScanResult :=
  let pos := agent_position M E
  (arangeQ amin amax res).map (fun a =>
    let rayEnd : Point := (pos.1 + max_range * co a, pos.2 + max_range * si a)
    let int_points := ray_intersect_obstacles E pos rayEnd
    if int_points.isEmpty then { angle := a, range := max_range }
    else
      { angle := a,
        range := aminQ (int_points.map (fun p =>
          sqrtf ((p.1 - pos.1) ^ 2 + (p.2 - pos.2) ^ 2))) })

/-- Modelled from the spec: `Map.py` is absent from the given sources.
Its `GridStatus` classification, as used through the planner's binary
traversability view, distinguishes traversable cells from confirmed
obstacles ("any non-confirmed-obstacle cell (including unknown) is
traversable"). -/
inductive GridStatus where
  | EMPTY : GridStatus
  | OBSTACLE : GridStatus
deriving DecidableEq

/-- Modelled from the spec: the binary map handed to the neighbor
strategies by `OccupancyGrid.get_binary_map` (absent `Map.py`): a fixed
2-D array of `GridStatus` values, carried here as its shape plus a total
value function (out-of-range cells are never read because the neighbor
strategies bounds-check first). -/
structure BinMap where
  rows : ℤ
  cols : ℤ
  val : Cell → GridStatus

/-- Modelled from the spec: `raytrace` of the absent `Map.py`, "integer
line rasterization enumerating every grid cell on the straight line
between two cells inclusive of both endpoints" (Bresenham).  Helper with
explicit fuel; every iteration moves at least one step in x or y, so
`|dx| + |dy| + 1` iterations always reach the endpoint. -/
def raytraceAux (x1 y1 sx sy dx dy : ℤ) : ℕ → ℤ → ℤ → ℤ → List Cell
  | 0, _, _, _ => []
  | fuel + 1, x, y, err =>
    (x, y) ::
      (if x = x1 ∧ y = y1 then []
       else
         let e2 := 2 * err
         let xe := if e2 ≥ -dy then (x + sx, err - dy) else (x, err)
         let ye := if e2 ≤ dx then (y + sy, xe.2 + dx) else (y, xe.2)
         raytraceAux x1 y1 sx sy dx dy fuel xe.1 ye.1 ye.2)

/-- Modelled from the spec: `raytrace(x0, y0, x1, y1)` returning the grid
cells on the segment, both endpoints included. -/
def raytrace (x0 y0 x1 y1 : ℤ) : List Cell :=
  let dx := |x1 - x0|
  let dy := |y1 - y0|
  let sx : ℤ := if x0 < x1 then 1 else -1
  let sy : ℤ := if y0 < y1 then 1 else -1
  raytraceAux x1 y1 sx sy dx dy (dx + dy + 1).toNat x0 y0 (dx - dy)

/-- Planner.py `get_n_grid_neighbors`: candidates in an `n × n` window
around `vertex`, each with Euclidean offset cost when the rasterized
segment to it crosses no obstacle cell and `np.inf` (`⊤`) otherwise.
`norm2` injects `np.linalg.norm` on the integer offset vector. -/
def get_n_grid_neighbors (norm2 : ℤ → ℤ → ℚ) (m : BinMap) (vertex : Cell) (n : ℕ) :
    List (Cell × Cost) :=
  let n1 := if n < 3 then 3 else n
  let n2 := if n1 % 2 = 0 then n1 + 1 else n1
  let w : ℤ := ((n2 : ℤ) - 1) / 2
  let offs : List ℤ := (List.range n2).map (fun a => (a : ℤ) - w)
  offs.flatMap (fun i =>
    offs.flatMap (fun j =>
      let pos : Cell := (vertex.1 + i, vertex.2 + j)
      if (¬(i = 0 ∧ j = 0)) ∧ 0 ≤ pos.1 ∧ 0 ≤ pos.2 ∧ pos.1 < m.rows ∧ pos.2 < m.cols then
        let cells := raytrace vertex.1 vertex.2 pos.1 pos.2
        let cost : Cost :=
          if (cells.countP (fun c => m.val c = GridStatus.OBSTACLE)) = 0 then
            ((norm2 i j : ℚ) : Cost)
          else ⊤
        [(pos, cost)]
      else []))

/-- Planner.py `Planner.__init__` state: the stored path and the cursor
(`None` before any successful plan). -/
structure PlannerState where
  path : Option (List Cell)
  pathIdx : Option ℤ
deriving DecidableEq

/-- The freshly constructed planner (`_path = None`, `_path_idx = None`). -/
def planner_init : PlannerState := { path := none, pathIdx := none }

/-- Planner.py property `path`: the stored path, or an empty array when
no plan has stored one yet. -/
def path_prop (st : PlannerState) : List Cell :=
  st.path.getD []

/-- Modelled from the spec: `convert_to_grid_coord` of the absent
`Map.py`, "affine transform using resolution and origin". -/
def convert_to_grid_coord (origin : Point) (res : ℚ) (p : Point) : Cell :=
  (Int.floor ((p.1 - origin.1) / res), Int.floor ((p.2 - origin.2) / res))

/-- Planner.py `A_Star_Planner.next_stop` (including the
`SearchBasedPlanner` world-coordinate conversion `convW` and the base
`Planner.next_stop`): on a single-element path first pin the cursor to
`-1`; return the entry at `cursor + 1` without advancing.  `none` models
the exceptions the python would raise (unset cursor / bad index). -/
def next_stop (convW : Cell → Point) (st : PlannerState) : Option (Point × PlannerState) :=
  match st.path, st.pathIdx with
  | some P, some i =>
    let i2 : ℤ := if P.length = 1 then -1 else i
    let j := i2 + 1
    if 0 ≤ j ∧ j < (P.length : ℤ) then
      some (convW (P.getD j.toNat (0, 0)), { st with pathIdx := some i2 })
    else none
  | _, _ => none

/-- Planner.py `A_Star_Planner.take_next_stop` (with the
world-coordinate conversion of `SearchBasedPlanner` and the base
`Planner.take_next_stop`): on a single-element path first pin the cursor
to `-1`; return the entry at `cursor + 1` and advance the cursor. -/
def take_next_stop (convW : Cell → Point) (st : PlannerState) : Option (Point × PlannerState) :=
  match st.path, st.pathIdx with
  | some P, some i =>
    let i2 : ℤ := if P.length = 1 then -1 else i
    let j := i2 + 1
    if 0 ≤ j ∧ j < (P.length : ℤ) then
      some (convW (P.getD j.toNat (0, 0)), { st with pathIdx := some (i2 + 1) })
    else none
  | _, _ => none

/-- The remaining-length/cursor check (`self._path_idx + 1 >= len(self._path)`
of Planner.py line 153, the check the spec obliges callers to run before
asking for another stop), as a "has a next stop" test. -/
def has_next_stop (st : PlannerState) : Bool :=
  match st.path, st.pathIdx with
  | some P, some i => decide (i + 1 < (P.length : ℤ))
  | _, _ => false

/-- The segment loop of Planner.py `SearchBasedPlanner.path_valid`
(lines 158-166), iterating indices `i = idx, …, len(path) - 1`:
the segment checked at index `i` runs from the previous stop (or from
`s0`, the converted current position, when `i = 0`) to `path[i]`; if the
rasterized segment contains no raw cell value `> 0` the loop returns
`False`, and after all indices it returns `True`.  The first argument is
the remaining iteration count `len(path) - i`. -/
def pv_loop (raw : Cell → ℤ) (P : List Cell) (s0 : Cell) : ℕ → ℕ → Bool
  | 0, _ => true
  | n + 1, i =>
    let start := if i = 0 then s0 else P.getD (i - 1) (0, 0)
    let pos := P.getD i (0, 0)
    let cells := raytrace start.1 start.2 pos.1 pos.2
    if (cells.countP (fun c => 0 < raw c)) = 0 then false
    else pv_loop raw P s0 n (i + 1)

/-- Planner.py `SearchBasedPlanner.path_valid(start)`.  `raw` is the raw
cell array `self._map._map` of the absent `Map.py` (modelled from the
spec: obstacle-marked cells are the ones holding a positive value, which
is what the source's `> 0` comparison reads); `conv` is
`convert_to_grid_coord`.  Returns `none` where the python would raise or
wrap a negative cursor through numpy indexing (no claim exercises that). -/
def path_valid (raw : Cell → ℤ) (conv : Point → Cell) (st : PlannerState) (start : Point) :
    Option Bool :=
  match st.path with
  | none => some false
  | some P =>
    match st.pathIdx with
    | none => none
    | some k =>
      if P.length ≠ 1 ∧ (P.length : ℤ) ≤ k + 1 then some false
      else if k < 0 then none
      else some (pv_loop raw P (conv start) (P.length - k.toNat) k.toNat)

/-- Pointwise update of a function on cells (a numpy array write). -/
def fupdate {β : Type} (f : Cell → β) (k : Cell) (v : β) : Cell → β :=
  fun c => if c = k then v else f c

/-- The per-call A* scratch state of Planner.py `_plan_algo`: the
cost-to-come array `g`, the `pqdict` open list `OPEN` (key/priority
pairs), and the predecessor array `pred` (`-1` entries are `none`). -/
structure AState where
  g : Cell → Cost
  OPEN : List (Cell × Cost)
  pred : Cell → Option Cell

/-- `pqdict` assignment `OPEN[k] = v`: replace the priority if the key is
present, append the key otherwise. -/
def setPriority : List (Cell × Cost) → Cell → Cost → List (Cell × Cost)
  | [], k, v => [(k, v)]
  | e :: es, k, v => if e.1 = k then (k, v) :: es else e :: setPriority es k v

/-- `pqdict.popitem()`: remove and return an entry of minimal priority
(the first such entry; any deterministic tie-break realizes the source's
heap). -/
def popMin : List (Cell × Cost) → Option ((Cell × Cost) × List (Cell × Cost))
  | [] => none
  | e :: es =>
    match popMin es with
    | none => some (e, [])
    | some (m, rest) => if e.2 ≤ m.2 then some (e, es) else some (m, e :: rest)

/-- One relaxation of the inner `for child in infos` loop of
`_plan_algo`: if `g[parent] + cost < g[child]`, update the label, the
predecessor, and the open-list priority `g[child] + eps * h(child - target)`. -/
def relaxChild (eps : ℚ) (heur : Cell → ℚ) (target parent : Cell) (st : AState)
    (child : Cell × Cost) : AState :=
  if st.g parent + child.2 < st.g child.1 then
    let gc := st.g parent + child.2
    { g := fupdate st.g child.1 gc,
      OPEN := setPriority st.OPEN child.1 (gc + ((eps * heur (child.1 - target) : ℚ) : Cost)),
      pred := fupdate st.pred child.1 (some parent) }
  else st

/-- The main `while not done` loop of `_plan_algo`, with explicit fuel
(`none` = fuel exhausted before the loop broke): pop the minimal open
entry (empty open list breaks with `done = False`); a popped target
breaks with `done = True`; otherwise expand the popped cell through the
injected neighbor strategy and relax each candidate. -/
def astarLoop (nf : BinMap → Cell → List (Cell × Cost)) (m : BinMap) (eps : ℚ)
    (heur : Cell → ℚ) (target : Cell) : ℕ → AState → Option (Bool × AState)
  | 0, _ => none
  | fuel + 1, st =>
    match popMin st.OPEN with
    | none => some (false, st)
    | some (e, rest) =>
      if e.1 = target then some (true, { st with OPEN := rest })
      else
        astarLoop nf m eps heur target fuel
          ((nf m e.1).foldl (relaxChild eps heur target e.1) { st with OPEN := rest })

/-- The path-reconstruction loop of `_plan_algo` (lines 234-240): follow
predecessors from `pos` back to `start`, collecting cells in reverse
order.  `none` models a missing predecessor (`-1` in the source, which
would there send the loop into garbage indices) or exhausted fuel. -/
def backtrack (pr : Cell → Option Cell) (start : Cell) : ℕ → Cell → Option (List Cell)
  | 0, _ => none
  | fuel + 1, pos =>
    if pos = start then some [pos]
    else
      match pr pos with
      | none => none
      | some q => (backtrack pr start fuel q).map (fun l => pos :: l)

/-- Planner.py `A_Star_Planner._plan_algo`: equal start and target give
the trivial single-cell path; otherwise run weighted A* from the scratch
state (`g = ∞` except `g[start] = 0`, open list seeded with `start` at
priority `g[start] + eps * h(start - target)`), then build the path (the
reverse of the backtracked list on success, the empty path on failure)
and return the `done` flag together with the new stored path. -/
def plan_algo (nf : BinMap → Cell → List (Cell × Cost)) (m : BinMap) (eps : ℚ)
    (heur : Cell → ℚ) (start target : Cell) (fuel : ℕ) : Option (Bool × List Cell) :=
  if start = target then some (true, [start])
  else
    match astarLoop nf m eps heur target fuel
      { g := fun c => if c = start then (0 : Cost) else ⊤,
        OPEN := [(start, (0 : Cost) + ((eps * heur (start - target) : ℚ) : Cost))],
        pred := fun _ => none } with
    | none => none
    | some (done, st) =>
      if done then
        match backtrack st.pred start fuel target with
        | none => none
        | some l => some (true, l.reverse)
      else some (false, [])

/-- Planner.py `A_Star_Planner.plan`: convert both world points to grid
cells through `conv` (the `convert_to_grid_coord` of the absent
`Map.py`), run `_plan_algo` — which stores the new path in both outcomes
— and reset the cursor to 0 only on success. -/
def plan (conv : Point → Cell) (nf : BinMap → Cell → List (Cell × Cost)) (m : BinMap)
    (eps : ℚ) (heur : Cell → ℚ) (st : PlannerState) (startW targetW : Point) (fuel : ℕ) :
    Option (Bool × PlannerState) :=
  match plan_algo nf m eps heur (conv startW) (conv targetW) fuel with
  | none => none
  | some (done, newPath) =>
    if done then some (true, { path := some newPath, pathIdx := some 0 })
    else some (false, { path := some newPath, pathIdx := st.pathIdx })

/-- The cost of the edge from `u` to `v` induced by an adjacency list:
the least cost among the entries for `v` in `adj u` (`⊤` when there is
none, i.e. no edge). -/
def edgeCost (adj : Cell → List (Cell × Cost)) (u v : Cell) : Cost :=
  ((adj u).filter (fun e => e.1 = v)).foldr (fun e acc => min e.2 acc) ⊤

/-- The cost of the cell sequence `anchor :: l` under `edgeCost`. -/
def cellCost (adj : Cell → List (Cell × Cost)) : Cell → List Cell → Cost
  | _, [] => 0
  | u, v :: r => edgeCost adj u v + cellCost adj v r

/-- The total cost of a cell sequence under the metric induced by the
neighbor strategy's edge costs (missing edges cost `⊤`). -/
def cellPathCost (adj : Cell → List (Cell × Cost)) : List Cell → Cost
  | [] => 0
  | u :: r => cellCost adj u r

/-- The keys of an open list. -/
def keysOf (l : List (Cell × Cost)) : List Cell :=
  l.map Prod.fst

/-- Claim C10: for a planner on which no successful plan call has yet
stored a path (the stored path is still `None`), reading the public
`path` attribute returns an empty sequence of length 0 rather than
failing or returning a null value. -/
theorem path_prop_empty_of_no_path (st : PlannerState) (h : st.path = none) :
    path_prop st = [] ∧ (path_prop st).length = 0 := by
  simp [path_prop, h]

/-- Witness for C10 at the freshly constructed planner. -/
theorem path_prop_empty_of_no_path_witness :
    planner_init.path = none ∧ path_prop planner_init = [] ∧
      (path_prop planner_init).length = 0 := by
  refine ⟨rfl, ?_, ?_⟩
  · exact (path_prop_empty_of_no_path planner_init rfl).1
  · exact (path_prop_empty_of_no_path planner_init rfl).2

/-- Claim C8: `add_obstacle o` appends `o` to the obstacle list and
returns success if and only if all four edges lie within world bounds
(`left ≥ 0`, `right ≤ width`, `bottom ≥ 0`, `top ≤ height`); when some
edge is outside bounds it returns failure and the obstacle list (indeed
the whole environment) is unchanged. -/
theorem add_obstacle_spec {σ : Type} (E : Env σ) (obs : Obstacle) :
    ((add_obstacle E obs).1 = true ↔
      (0 ≤ obs.left ∧ obs.right ≤ E.env_size.1 ∧ 0 ≤ obs.bottom ∧ obs.top ≤ E.env_size.2))
    ∧ ((add_obstacle E obs).1 = true →
        (add_obstacle E obs).2.obstacles = E.obstacles ++ [obs])
    ∧ ((add_obstacle E obs).1 = false → (add_obstacle E obs).2 = E) := by
  unfold add_obstacle
  split
  · next h => simp [h]
  · next h => simp [h]

/-- Witness for C8: an in-bounds obstacle is appended, an out-of-bounds
one is rejected with the environment unchanged. -/
theorem add_obstacle_spec_witness :
    (add_obstacle (⟨(100, 100), [], ()⟩ : Env Unit) ⟨53, 52, 49, 55⟩).1 = true
    ∧ (add_obstacle (⟨(100, 100), [], ()⟩ : Env Unit) ⟨53, 52, 49, 55⟩).2.obstacles
        = [⟨53, 52, 49, 55⟩]
    ∧ (add_obstacle (⟨(100, 100), [], ()⟩ : Env Unit) ⟨53, -1, 49, 55⟩).1 = false
    ∧ (add_obstacle (⟨(100, 100), [], ()⟩ : Env Unit) ⟨53, -1, 49, 55⟩).2
        = (⟨(100, 100), [], ()⟩ : Env Unit) := by
  have h1 := add_obstacle_spec (⟨(100, 100), [], ()⟩ : Env Unit) ⟨53, 52, 49, 55⟩
  have h2 := add_obstacle_spec (⟨(100, 100), [], ()⟩ : Env Unit) ⟨53, -1, 49, 55⟩
  have hb1 : (add_obstacle (⟨(100, 100), [], ()⟩ : Env Unit) ⟨53, 52, 49, 55⟩).1 = true :=
    h1.1.mpr (by norm_num)
  have hb2 : (add_obstacle (⟨(100, 100), [], ()⟩ : Env Unit) ⟨53, -1, 49, 55⟩).1 = false := by
    rcases hbool : (add_obstacle (⟨(100, 100), [], ()⟩ : Env Unit) ⟨53, -1, 49, 55⟩).1 with _ | _
    · rfl
    · have := h2.1.mp hbool
      norm_num at this
  exact ⟨hb1, by simpa using h1.2.1 hb1, hb2, h2.2.2 hb2⟩

/-- Claim C9: `agent_take_step` commits the motion model's candidate
next state and returns success if and only if that state's position lies
within world bounds and inside no obstacle, with the obstacle-membership
test inclusive of the rectangle edges; otherwise the environment is
unchanged and the call returns failure (a return value, not an
exception). -/
theorem agent_take_step_spec {σ ι : Type} (M : MotionModel σ ι) (E : Env σ) (inp : ι)
    (braking : Bool) :
    ((agent_take_step M E inp braking).1 = true ↔
      (position_out_of_bounds E (M.state_2_position (M.step E.agent_state inp braking)) = false
        ∧ state_in_obstacles M E (M.step E.agent_state inp braking) = false))
    ∧ (∀ s, state_in_obstacles M E s = false ↔
        ∀ obs ∈ E.obstacles, position_in_obstacle (M.state_2_position s) obs = false)
    ∧ ((agent_take_step M E inp braking).1 = true →
        (agent_take_step M E inp braking).2.agent_state = M.step E.agent_state inp braking)
    ∧ ((agent_take_step M E inp braking).1 = false → (agent_take_step M E inp braking).2 = E)
    ∧ (∀ pos obs, position_in_obstacle pos obs = true ↔
        (obs.left ≤ pos.1 ∧ pos.1 ≤ obs.right ∧ obs.bottom ≤ pos.2 ∧ pos.2 ≤ obs.top))
    ∧ (∀ pos, position_out_of_bounds E pos = false ↔
        (0 ≤ pos.1 ∧ pos.1 ≤ E.env_size.1 ∧ 0 ≤ pos.2 ∧ pos.2 ≤ E.env_size.2)) := by
  by_cases hC : state_out_of_bounds M E (M.step E.agent_state inp braking) = false
      ∧ state_in_obstacles M E (M.step E.agent_state inp braking) = false
  · refine ⟨?_, ?_, ?_, ?_, ?_, ?_⟩
    · constructor
      · intro _
        exact ⟨hC.1, hC.2⟩
      · intro _
        simp [agent_take_step, if_pos hC]
    · intro s
      simp [state_in_obstacles]
    · intro _
      simp [agent_take_step, if_pos hC]
    · intro h
      simp [agent_take_step, if_pos hC] at h
    · intro pos obs
      simp [position_in_obstacle]
    · intro pos
      simp only [position_out_of_bounds, decide_eq_false_iff_not, not_or, not_lt]
  · refine ⟨?_, ?_, ?_, ?_, ?_, ?_⟩
    · constructor
      · intro h
        simp [agent_take_step, if_neg hC] at h
      · intro h
        exact absurd ⟨h.1, h.2⟩ hC
    · intro s
      simp [state_in_obstacles]
    · intro h
      simp [agent_take_step, if_neg hC] at h
    · intro _
      simp [agent_take_step, if_neg hC]
    · intro pos obs
      simp [position_in_obstacle]
    · intro pos
      simp only [position_out_of_bounds, decide_eq_false_iff_not, not_or, not_lt]

/-- Witness for C9: with a concrete motion model carrying the state to
(1, 1), the step into free in-bounds space commits and succeeds. -/
theorem agent_take_step_spec_witness :
    (agent_take_step (⟨fun _ p _ => p, id⟩ : MotionModel Point Point)
        (⟨(10, 10), [⟨8, 5, 5, 8⟩], (0, 0)⟩ : Env Point) (1, 1) false).1 = true
    ∧ (agent_take_step (⟨fun _ p _ => p, id⟩ : MotionModel Point Point)
        (⟨(10, 10), [⟨8, 5, 5, 8⟩], (0, 0)⟩ : Env Point) (1, 1) false).2.agent_state
        = ((1 : ℚ), (1 : ℚ)) := by
  have h := agent_take_step_spec (⟨fun _ p _ => p, id⟩ : MotionModel Point Point)
    (⟨(10, 10), [⟨8, 5, 5, 8⟩], (0, 0)⟩ : Env Point) (1, 1) false
  have hb : (agent_take_step (⟨fun _ p _ => p, id⟩ : MotionModel Point Point)
      (⟨(10, 10), [⟨8, 5, 5, 8⟩], (0, 0)⟩ : Env Point) (1, 1) false).1 = true := by
    refine h.1.mpr ⟨?_, ?_⟩
    · exact (h.2.2.2.2.2 _).mpr (by norm_num)
    · refine (h.2.1 _).mpr ?_
      intro obs hobs
      simp only [List.mem_singleton] at hobs
      subst hobs
      rcases hpos : position_in_obstacle ((⟨fun _ p _ => p, id⟩ :
          MotionModel Point Point).state_2_position (1, 1)) ⟨8, 5, 5, 8⟩ with _ | _
      · rfl
      · have := (h.2.2.2.2.1 _ _).mp hpos
        norm_num [MotionModel.state_2_position] at this
  exact ⟨hb, h.2.2.1 hb⟩

/-- Claim C3: when `plan` is called with start and target converting to
the same grid cell it succeeds with a one-element path and cursor 0, and
the cursor is pinned so the next stop is immediately exhausted: the
length/cursor check (`cursor + 1 < length`) callers must run before
taking a stop already fails right after planning, and it still fails
after a `take_next_stop`, whose pinned cursor ends back at 0 — so every
further stop beyond the single element is rejected by that prior check
rather than yielded. -/
theorem plan_same_cell_spec (conv : Point → Cell) (convW : Cell → Point)
    (nf : BinMap → Cell → List (Cell × Cost)) (m : BinMap) (eps : ℚ) (heur : Cell → ℚ)
    (st : PlannerState) (startW targetW : Point) (fuel : ℕ)
    (hsame : conv startW = conv targetW) :
    plan conv nf m eps heur st startW targetW fuel
      = some (true, { path := some [conv startW], pathIdx := some 0 })
    ∧ has_next_stop { path := some [conv startW], pathIdx := some 0 } = false
    ∧ (∀ w st2,
        take_next_stop convW { path := some [conv startW], pathIdx := some 0 } = some (w, st2) →
          w = convW (conv startW) ∧ st2.pathIdx = some 0 ∧ has_next_stop st2 = false) := by
  refine ⟨?_, ?_, ?_⟩
  · simp [plan, plan_algo, ← hsame]
  · simp [has_next_stop]
  · intro w st2 h
    simp only [take_next_stop, List.length_singleton, if_pos rfl] at h
    norm_num at h
    refine ⟨h.1.symm, ?_, ?_⟩
    · rw [← h.2]
    · rw [← h.2]
      simp [has_next_stop]

unseal Rat.add Rat.mul Rat.sub Rat.inv Nat.gcd Rat.ofScientific in
/-- Witness for C3: a concrete planner, world points in the same unit
cell, and the floor-based conversion. -/
theorem plan_same_cell_spec_witness :
    plan (convert_to_grid_coord (0, 0) 1) (fun m v => get_n_grid_neighbors (fun _ _ => 1) m v 3)
        (⟨1, 2, fun _ => GridStatus.EMPTY⟩ : BinMap) 1 (fun _ => 0) planner_init
        (1/3, 0) (2/3, 0) 8
      = some (true, { path := some [convert_to_grid_coord (0, 0) 1 (1/3, 0)], pathIdx := some 0 })
    ∧ has_next_stop { path := some [convert_to_grid_coord (0, 0) 1 (1/3, 0)], pathIdx := some 0 }
        = false := by
  have h := plan_same_cell_spec (convert_to_grid_coord (0, 0) 1)
    (fun c => ((c.1 : ℚ), (c.2 : ℚ)))
    (fun m v => get_n_grid_neighbors (fun _ _ => 1) m v 3)
    (⟨1, 2, fun _ => GridStatus.EMPTY⟩ : BinMap) 1 (fun _ => 0) planner_init
    (1/3, 0) (2/3, 0) 8 (by decide)
  exact ⟨h.1, h.2.1⟩

unseal Rat.add Rat.mul Rat.sub Rat.inv Nat.gcd in
/-- Counterexample to claim C4: on a successfully planned one-element
path with cursor 0, `next_stop` does not leave the cursor unchanged (it
pins it to -1, a regression), and `take_next_stop` does not increase it
by exactly one (the cursor ends back at 0). -/
theorem cursor_monotone_counterexample :
    next_stop (fun c => ((c.1 : ℚ), (c.2 : ℚ)))
        { path := some [(0, 0)], pathIdx := some 0 }
      = some ((0, 0), { path := some [(0, 0)], pathIdx := some (-1) })
    ∧ take_next_stop (fun c => ((c.1 : ℚ), (c.2 : ℚ)))
        { path := some [(0, 0)], pathIdx := some 0 }
      = some ((0, 0), { path := some [(0, 0)], pathIdx := some 0 })
    ∧ (some (-1) : Option ℤ) ≠ some 0
    ∧ (some (0) : Option ℤ) ≠ some (0 + 1) := by
  refine ⟨by decide, by decide, by decide, by decide⟩

/-- Claim C4 as amended: after a successful plan, for stored paths of
length other than one `take_next_stop` advances the cursor by exactly
one and keeps it bounded by the path length (success requires the new
cursor to be a valid index), and `next_stop` leaves the planner state
unchanged; for one-element paths both calls first pin the cursor to -1,
so `take_next_stop` leaves it at 0 (no net advance) and `next_stop`
leaves it at -1 (a regression). -/
theorem cursor_advance_amended (convW : Cell → Point) (st : PlannerState) (P : List Cell)
    (i : ℤ) (hp : st.path = some P) (hi : st.pathIdx = some i) :
    (P.length ≠ 1 →
      (∀ w st2, take_next_stop convW st = some (w, st2) →
        st2.path = some P ∧ st2.pathIdx = some (i + 1) ∧ 0 ≤ i + 1 ∧ i + 1 < (P.length : ℤ))
      ∧ (∀ w st2, next_stop convW st = some (w, st2) → st2 = st))
    ∧ (P.length = 1 →
      (∀ w st2, take_next_stop convW st = some (w, st2) → st2.pathIdx = some 0)
      ∧ (∀ w st2, next_stop convW st = some (w, st2) → st2.pathIdx = some (-1))) := by
  constructor
  · intro hlen
    constructor
    · intro w st2 h
      simp only [take_next_stop, hp, hi, if_neg hlen] at h
      by_cases hcond : 0 ≤ i + 1 ∧ i + 1 < (P.length : ℤ)
      · rw [if_pos hcond] at h
        have h2 := (Option.some.injEq _ _).mp h
        have hst2 : st2 = { path := some P, pathIdx := some (i + 1) } :=
          ((Prod.mk.injEq _ _ _ _).mp h2).2.symm
        subst hst2
        exact ⟨rfl, rfl, hcond.1, hcond.2⟩
      · rw [if_neg hcond] at h
        cases h
    · intro w st2 h
      simp only [next_stop, hp, hi, if_neg hlen] at h
      by_cases hcond : 0 ≤ i + 1 ∧ i + 1 < (P.length : ℤ)
      · rw [if_pos hcond] at h
        have h2 := (Option.some.injEq _ _).mp h
        have hst2 : st2 = { path := some P, pathIdx := some i } :=
          ((Prod.mk.injEq _ _ _ _).mp h2).2.symm
        subst hst2
        cases st
        simp_all
      · rw [if_neg hcond] at h
        cases h
  · intro hlen
    constructor
    · intro w st2 h
      simp only [take_next_stop, hp, hi, if_pos hlen] at h
      norm_num at h
      rw [← h.2.2]
    · intro w st2 h
      simp only [next_stop, hp, hi, if_pos hlen] at h
      norm_num at h
      rw [← h.2.2]

/-- Witness for C4 (amended): on a two-element path with cursor 0,
`take_next_stop` moves the cursor to 1 (within the length bound) and
`next_stop` leaves the state unchanged. -/
theorem cursor_advance_amended_witness :
    (∀ w st2,
      take_next_stop (fun c => ((c.1 : ℚ), (c.2 : ℚ)))
          { path := some [(0, 0), (1, 0)], pathIdx := some 0 } = some (w, st2) →
        st2.path = some [(0, 0), (1, 0)] ∧ st2.pathIdx = some (0 + 1)
          ∧ 0 ≤ (0 : ℤ) + 1 ∧ (0 : ℤ) + 1 < (([((0 : ℤ), (0 : ℤ)), (1, 0)]).length : ℤ))
    ∧ (∀ w st2,
        next_stop (fun c => ((c.1 : ℚ), (c.2 : ℚ)))
            { path := some [(0, 0), (1, 0)], pathIdx := some 0 } = some (w, st2) →
          st2 = { path := some [(0, 0), (1, 0)], pathIdx := some 0 }) := by
  have h := cursor_advance_amended (fun c => ((c.1 : ℚ), (c.2 : ℚ)))
    { path := some [(0, 0), (1, 0)], pathIdx := some 0 } [(0, 0), (1, 0)] 0 rfl rfl
  exact h.1 (by decide)

unseal Rat.add Rat.mul Rat.sub Rat.inv Nat.gcd in
/-- Claim C1 fails on the code (code bug): `path_valid` inverts the
obstruction test.  On a map whose every raw cell value is 0 (no
obstacle-marked cell anywhere, so no traced cell of any segment is an
obstacle) a planner holding the non-trivial path [(0,0), (1,0)] with
cursor 0 gets `path_valid = false`, although the claim (and the spec)
require `false` only when some untraversed segment's raytrace contains
an obstacle-marked cell; dually, on a map whose every cell is
obstacle-marked (positive) the same path gets `path_valid = true`.  The
source's `if np.sum(self._map._map[ray_xx, ray_yy] > 0) == 0: return
False` returns invalid exactly when a segment crosses no obstacle cell. -/
theorem path_valid_inverted_bug :
    path_valid (fun _ => 0) (convert_to_grid_coord (0, 0) 1)
        { path := some [(0, 0), (1, 0)], pathIdx := some 0 } (0, 0) = some false
    ∧ (∀ c : Cell, ¬ 0 < (fun _ => (0 : ℤ)) c)
    ∧ path_valid (fun _ => 1) (convert_to_grid_coord (0, 0) 1)
        { path := some [(0, 0), (1, 0)], pathIdx := some 0 } (0, 0) = some true
    ∧ (∀ c : Cell, 0 < (fun _ => (1 : ℤ)) c) := by
  refine ⟨by decide, ?_, by decide, ?_⟩
  · intro c
    simp
  · intro c
    simp

unseal Rat.add Rat.mul Rat.sub Rat.inv Nat.gcd in
/-- Counterexample to claim C2: a planner that stores the path
[(0,0), (1,1)] and then calls `plan` toward a target walled off by an
obstacle cell gets a failed search — and its stored path is replaced by
the empty path instead of being left exactly as it was. -/
theorem plan_failure_clobbers_path_counterexample :
    plan (convert_to_grid_coord (0, 0) 1)
        (fun m v => get_n_grid_neighbors (fun i j => ((i * i + j * j : ℤ) : ℚ)) m v 3)
        (⟨1, 2, fun c => if c = ((0 : ℤ), (1 : ℤ)) then GridStatus.OBSTACLE
          else GridStatus.EMPTY⟩ : BinMap)
        1 (fun _ => 0) { path := some [(0, 0), (1, 1)], pathIdx := some 0 } (0, 0) (0, 1) 8
      = some (false, { path := some [], pathIdx := some 0 })
    ∧ (some ([] : List Cell)) ≠ some [((0 : ℤ), (0 : ℤ)), (1, 1)] := by
  exact ⟨by decide, by decide⟩

/-- On every failed search (`done = False`), `_plan_algo` stores the
empty path. -/
theorem plan_algo_false_path (nf : BinMap → Cell → List (Cell × Cost)) (m : BinMap) (eps : ℚ)
    (heur : Cell → ℚ) (start target : Cell) (fuel : ℕ) (l : List Cell)
    (h : plan_algo nf m eps heur start target fuel = some (false, l)) : l = [] := by
  unfold plan_algo at h
  by_cases hst : start = target
  · rw [if_pos hst] at h
    simp at h
  · rw [if_neg hst] at h
    split at h
    · cases h
    · split at h
      · split at h
        · cases h
        · simp at h
      · have := (Option.some.injEq _ _).mp h
        exact (congrArg Prod.snd this).symm

/-- Claim C2 as amended: whenever the A* search exhausts its open set
without popping the target, `plan` reports failure and replaces the
stored path by the empty path (the previous path is discarded, not
preserved); only the cursor is left as it was. -/
theorem plan_failure_amended (conv : Point → Cell) (nf : BinMap → Cell → List (Cell × Cost))
    (m : BinMap) (eps : ℚ) (heur : Cell → ℚ) (st : PlannerState) (startW targetW : Point)
    (fuel : ℕ) (res : Bool × PlannerState)
    (h : plan conv nf m eps heur st startW targetW fuel = some res) (hfail : res.1 = false) :
    res.2.path = some [] ∧ res.2.pathIdx = st.pathIdx := by
  unfold plan at h
  split at h
  · cases h
  · rename_i done newPath halgo
    split at h
    · rename_i hd
      rw [← (Option.some.injEq _ _).mp h] at hfail
      cases hfail
    · rename_i hd
      have hdf : done = false := by
        cases done
        · rfl
        · exact absurd rfl hd
      have hnp : newPath = [] :=
        plan_algo_false_path nf m eps heur (conv startW) (conv targetW) fuel newPath
          (hdf ▸ halgo)
      rw [← (Option.some.injEq _ _).mp h, hnp]
      exact ⟨rfl, rfl⟩

unseal Rat.add Rat.mul Rat.sub Rat.inv Nat.gcd in
/-- Witness for C2 (amended), at the concrete failed search of the
counterexample instance (stale cursor 7 is kept, path is emptied). -/
theorem plan_failure_amended_witness :
    plan (convert_to_grid_coord (0, 0) 1)
        (fun m v => get_n_grid_neighbors (fun i j => ((i * i + j * j : ℤ) : ℚ)) m v 3)
        (⟨1, 2, fun c => if c = ((0 : ℤ), (1 : ℤ)) then GridStatus.OBSTACLE
          else GridStatus.EMPTY⟩ : BinMap)
        1 (fun _ => 0) { path := some [(0, 0), (1, 1)], pathIdx := some 7 } (0, 0) (0, 1) 8
      = some (false, { path := some [], pathIdx := some 7 })
    ∧ ((false, ({ path := some [], pathIdx := some 7 } : PlannerState)).2.path = some []
        ∧ (false, ({ path := some [], pathIdx := some 7 } : PlannerState)).2.pathIdx
            = ({ path := some [(0, 0), (1, 1)], pathIdx := some 7 } : PlannerState).pathIdx) := by
  have hrun : plan (convert_to_grid_coord (0, 0) 1)
      (fun m v => get_n_grid_neighbors (fun i j => ((i * i + j * j : ℤ) : ℚ)) m v 3)
      (⟨1, 2, fun c => if c = ((0 : ℤ), (1 : ℤ)) then GridStatus.OBSTACLE
        else GridStatus.EMPTY⟩ : BinMap)
      1 (fun _ => 0) { path := some [(0, 0), (1, 1)], pathIdx := some 7 } (0, 0) (0, 1) 8
      = some (false, { path := some [], pathIdx := some 7 }) := by decide
  have h := plan_failure_amended (convert_to_grid_coord (0, 0) 1)
    (fun m v => get_n_grid_neighbors (fun i j => ((i * i + j * j : ℤ) : ℚ)) m v 3)
    (⟨1, 2, fun c => if c = ((0 : ℤ), (1 : ℤ)) then GridStatus.OBSTACLE
      else GridStatus.EMPTY⟩ : BinMap)
    1 (fun _ => 0) { path := some [(0, 0), (1, 1)], pathIdx := some 7 } (0, 0) (0, 1) 8
    (false, { path := some [], pathIdx := some 7 }) hrun rfl
  exact ⟨hrun, h.1, h.2⟩


/-- The narrowed slab entry parameter of claim C5: the maximum, over the
axes with nonzero direction component, of the per-axis entry parameter
`min(t1, t2)`; 0 in the unreachable case of no such axis. -/
def slabTmin (p0 p1 : Point) (obs : Obstacle) : ℚ :=
  if p1.1 - p0.1 ≠ 0 then
    if p1.2 - p0.2 ≠ 0 then
      max (min ((obs.left - p0.1) / (p1.1 - p0.1)) ((obs.right - p0.1) / (p1.1 - p0.1)))
        (min ((obs.bottom - p0.2) / (p1.2 - p0.2)) ((obs.top - p0.2) / (p1.2 - p0.2)))
    else min ((obs.left - p0.1) / (p1.1 - p0.1)) ((obs.right - p0.1) / (p1.1 - p0.1))
  else if p1.2 - p0.2 ≠ 0 then
    min ((obs.bottom - p0.2) / (p1.2 - p0.2)) ((obs.top - p0.2) / (p1.2 - p0.2))
  else 0

/-- The narrowed slab exit parameter of claim C5: the minimum, over the
axes with nonzero direction component, of the per-axis exit parameter
`max(t1, t2)`; 0 in the unreachable case of no such axis. -/
def slabTmax (p0 p1 : Point) (obs : Obstacle) : ℚ :=
  if p1.1 - p0.1 ≠ 0 then
    if p1.2 - p0.2 ≠ 0 then
      min (max ((obs.left - p0.1) / (p1.1 - p0.1)) ((obs.right - p0.1) / (p1.1 - p0.1)))
        (max ((obs.bottom - p0.2) / (p1.2 - p0.2)) ((obs.top - p0.2) / (p1.2 - p0.2)))
    else max ((obs.left - p0.1) / (p1.1 - p0.1)) ((obs.right - p0.1) / (p1.1 - p0.1))
  else if p1.2 - p0.2 ≠ 0 then
    max ((obs.bottom - p0.2) / (p1.2 - p0.2)) ((obs.top - p0.2) / (p1.2 - p0.2))
  else 0

/-- Claim C5: for every ray `p0 → p1` and obstacle: an origin inside the
obstacle gives no collision with endpoint at the origin; a zero
direction component on an axis whose slab excludes the origin gives no
collision (with endpoint `p1` when the origin is not inside the
obstacle); otherwise collision holds iff `tmax > tmin`, `tmax > 0` and
`tmin < 1` for the narrowed slab interval `[tmin, tmax]`, a collision
point is `p0 + tmin * (p1 - p0)`, and no collision returns the far end
`p1`. -/
theorem ray_intersect_obstacle_spec (p0 p1 : Point) (obs : Obstacle) :
    (position_in_obstacle p0 obs = true →
      ray_intersect_obstacle p0 p1 obs = { collide := false, endpoint := p0 })
    ∧ (((p1.1 - p0.1 = 0 ∧ (p0.1 ≤ obs.left ∨ obs.right ≤ p0.1)) ∨
          (p1.2 - p0.2 = 0 ∧ (p0.2 ≤ obs.bottom ∨ obs.top ≤ p0.2))) →
        (ray_intersect_obstacle p0 p1 obs).collide = false)
    ∧ (position_in_obstacle p0 obs = false →
        ((p1.1 - p0.1 = 0 ∧ (p0.1 ≤ obs.left ∨ obs.right ≤ p0.1)) ∨
          (p1.2 - p0.2 = 0 ∧ (p0.2 ≤ obs.bottom ∨ obs.top ≤ p0.2))) →
        ray_intersect_obstacle p0 p1 obs = { collide := false, endpoint := p1 })
    ∧ (position_in_obstacle p0 obs = false →
        ¬((p1.1 - p0.1 = 0 ∧ (p0.1 ≤ obs.left ∨ obs.right ≤ p0.1)) ∨
            (p1.2 - p0.2 = 0 ∧ (p0.2 ≤ obs.bottom ∨ obs.top ≤ p0.2))) →
        ((ray_intersect_obstacle p0 p1 obs).collide = true ↔
            (slabTmin p0 p1 obs < slabTmax p0 p1 obs ∧ 0 < slabTmax p0 p1 obs ∧
              slabTmin p0 p1 obs < 1))
        ∧ ((ray_intersect_obstacle p0 p1 obs).collide = true →
            (ray_intersect_obstacle p0 p1 obs).endpoint
              = (p0.1 + slabTmin p0 p1 obs * (p1.1 - p0.1),
                 p0.2 + slabTmin p0 p1 obs * (p1.2 - p0.2)))
        ∧ ((ray_intersect_obstacle p0 p1 obs).collide = false →
            (ray_intersect_obstacle p0 p1 obs).endpoint = p1)) := by
  have hc1 : position_in_obstacle p0 obs = true →
      ray_intersect_obstacle p0 p1 obs = { collide := false, endpoint := p0 } := by
    intro hin
    simp only [ray_intersect_obstacle, hin, if_true]
  have hc3 : position_in_obstacle p0 obs = false →
      ((p1.1 - p0.1 = 0 ∧ (p0.1 ≤ obs.left ∨ obs.right ≤ p0.1)) ∨
        (p1.2 - p0.2 = 0 ∧ (p0.2 ≤ obs.bottom ∨ obs.top ≤ p0.2))) →
      ray_intersect_obstacle p0 p1 obs = { collide := false, endpoint := p1 } := by
    intro hin hdeg
    simp only [ray_intersect_obstacle, hin, Bool.false_eq_true, if_false]
    rcases hdeg with ⟨h1, hx⟩ | ⟨h2, hy⟩
    · rw [if_neg (by simpa using h1), if_pos hx]
    · by_cases h1 : p1.1 - p0.1 ≠ 0
      · rw [if_pos h1, if_neg (by simpa using h2), if_pos hy]
      · push_neg at h1
        rw [if_neg (by simpa using h1)]
        by_cases hx : p0.1 ≤ obs.left ∨ obs.right ≤ p0.1
        · rw [if_pos hx]
        · rw [if_neg hx, if_neg (by simpa using h2), if_pos hy]
  refine ⟨hc1, ?_, hc3, ?_⟩
  · intro hdeg
    rcases hin : position_in_obstacle p0 obs with _ | _
    · rw [hc3 hin hdeg]
    · rw [hc1 hin]
  · intro hin hdeg
    push_neg at hdeg
    by_cases h1 : p1.1 - p0.1 ≠ 0
    · by_cases h2 : p1.2 - p0.2 ≠ 0
      · simp only [ray_intersect_obstacle, hin, Bool.false_eq_true, if_false, if_pos h1,
          if_pos h2, slabTmin, slabTmax]
        by_cases hcond : max (min ((obs.left - p0.1) / (p1.1 - p0.1))
              ((obs.right - p0.1) / (p1.1 - p0.1)))
            (min ((obs.bottom - p0.2) / (p1.2 - p0.2)) ((obs.top - p0.2) / (p1.2 - p0.2)))
            < min (max ((obs.left - p0.1) / (p1.1 - p0.1)) ((obs.right - p0.1) / (p1.1 - p0.1)))
              (max ((obs.bottom - p0.2) / (p1.2 - p0.2)) ((obs.top - p0.2) / (p1.2 - p0.2)))
          ∧ 0 < min (max ((obs.left - p0.1) / (p1.1 - p0.1)) ((obs.right - p0.1) / (p1.1 - p0.1)))
              (max ((obs.bottom - p0.2) / (p1.2 - p0.2)) ((obs.top - p0.2) / (p1.2 - p0.2)))
          ∧ max (min ((obs.left - p0.1) / (p1.1 - p0.1)) ((obs.right - p0.1) / (p1.1 - p0.1)))
              (min ((obs.bottom - p0.2) / (p1.2 - p0.2)) ((obs.top - p0.2) / (p1.2 - p0.2))) < 1
        · rw [if_pos hcond]
          exact ⟨iff_of_true rfl hcond, fun _ => rfl, fun h => absurd h (by simp)⟩
        · rw [if_neg hcond]
          exact ⟨iff_of_false (by simp) hcond, fun h => absurd h (by simp), fun _ => rfl⟩
      · push_neg at h2
        have hy : ¬(p0.2 ≤ obs.bottom ∨ obs.top ≤ p0.2) := by
          rcases hdeg.2 h2 with ⟨ha, hb⟩
          rintro (hc | hc)
          · exact absurd hc (not_le.mpr ha)
          · exact absurd hc (not_le.mpr hb)
        simp only [ray_intersect_obstacle, hin, Bool.false_eq_true, if_false, if_pos h1,
          if_neg (fun hh => hh h2 : ¬(p1.2 - p0.2 ≠ 0)), if_neg hy, slabTmin, slabTmax,
          if_neg (fun hh => hh h2 : ¬(p1.2 - p0.2 ≠ 0))]
        by_cases hcond : min ((obs.left - p0.1) / (p1.1 - p0.1))
              ((obs.right - p0.1) / (p1.1 - p0.1))
            < max ((obs.left - p0.1) / (p1.1 - p0.1)) ((obs.right - p0.1) / (p1.1 - p0.1))
          ∧ 0 < max ((obs.left - p0.1) / (p1.1 - p0.1)) ((obs.right - p0.1) / (p1.1 - p0.1))
          ∧ min ((obs.left - p0.1) / (p1.1 - p0.1)) ((obs.right - p0.1) / (p1.1 - p0.1)) < 1
        · rw [if_pos hcond]
          exact ⟨iff_of_true rfl hcond, fun _ => rfl, fun h => absurd h (by simp)⟩
        · rw [if_neg hcond]
          exact ⟨iff_of_false (by simp) hcond, fun h => absurd h (by simp), fun _ => rfl⟩
    · push_neg at h1
      have hx : ¬(p0.1 ≤ obs.left ∨ obs.right ≤ p0.1) := by
        rcases hdeg.1 h1 with ⟨ha, hb⟩
        rintro (hc | hc)
        · exact absurd hc (not_le.mpr ha)
        · exact absurd hc (not_le.mpr hb)
      by_cases h2 : p1.2 - p0.2 ≠ 0
      · simp only [ray_intersect_obstacle, hin, Bool.false_eq_true, if_false,
          if_neg (fun hh => hh h1 : ¬(p1.1 - p0.1 ≠ 0)), if_neg hx, if_pos h2,
          slabTmin, slabTmax]
        by_cases hcond : min ((obs.bottom - p0.2) / (p1.2 - p0.2))
              ((obs.top - p0.2) / (p1.2 - p0.2))
            < max ((obs.bottom - p0.2) / (p1.2 - p0.2)) ((obs.top - p0.2) / (p1.2 - p0.2))
          ∧ 0 < max ((obs.bottom - p0.2) / (p1.2 - p0.2)) ((obs.top - p0.2) / (p1.2 - p0.2))
          ∧ min ((obs.bottom - p0.2) / (p1.2 - p0.2)) ((obs.top - p0.2) / (p1.2 - p0.2)) < 1
        · rw [if_pos hcond]
          exact ⟨iff_of_true rfl hcond, fun _ => rfl, fun h => absurd h (by simp)⟩
        · rw [if_neg hcond]
          exact ⟨iff_of_false (by simp) hcond, fun h => absurd h (by simp), fun _ => rfl⟩
      · push_neg at h2
        exfalso
        simp only [position_in_obstacle, decide_eq_false_iff_not] at hin
        exact hin ⟨(hdeg.1 h1).1.le, (hdeg.1 h1).2.le, (hdeg.2 h2).1.le, (hdeg.2 h2).2.le⟩

unseal Rat.add Rat.mul Rat.sub Rat.inv Nat.gcd in
/-- Witness for C5: the concrete ray (0,0) → (2,0) against the obstacle
(top=1, left=1, bottom=-1, right=3) collides at (1,0). -/
theorem ray_intersect_obstacle_spec_witness :
    position_in_obstacle ((0 : ℚ), (0 : ℚ)) ⟨1, 1, -1, 3⟩ = false
    ∧ (ray_intersect_obstacle (0, 0) (2, 0) ⟨1, 1, -1, 3⟩).collide = true
    ∧ (ray_intersect_obstacle (0, 0) (2, 0) ⟨1, 1, -1, 3⟩).endpoint = (1, 0) := by
  have h := ray_intersect_obstacle_spec (0, 0) (2, 0) ⟨1, 1, -1, 3⟩
  have h4 := h.2.2.2 (by decide) (by decide)
  have hc : (ray_intersect_obstacle (0, 0) (2, 0) ⟨1, 1, -1, 3⟩).collide = true :=
    h4.1.mpr (by decide)
  refine ⟨by decide, hc, ?_⟩
  rw [h4.2.1 hc]
  decide

/-- A left fold by `min` is bounded by its initial accumulator. -/
theorem foldl_min_le_init (xs : List ℚ) : ∀ a : ℚ, xs.foldl min a ≤ a := by
  induction xs with
  | nil => intro a; exact le_refl a
  | cons x xs ih => intro a; exact le_trans (ih (min a x)) (min_le_left a x)

/-- A left fold by `min` is bounded by every list element. -/
theorem foldl_min_le_mem (xs : List ℚ) : ∀ a b, b ∈ xs → xs.foldl min a ≤ b := by
  induction xs with
  | nil =>
    intro a b hb
    cases hb
  | cons x xs ih =>
    intro a b hb
    rcases List.mem_cons.mp hb with rfl | hb
    · exact le_trans (foldl_min_le_init xs (min a b)) (min_le_right a b)
    · exact ih (min a x) b hb

/-- A left fold by `min` returns its accumulator or some element. -/
theorem foldl_min_mem (xs : List ℚ) : ∀ a, xs.foldl min a = a ∨ xs.foldl min a ∈ xs := by
  induction xs with
  | nil => intro a; exact Or.inl rfl
  | cons x xs ih =>
    intro a
    rw [List.foldl_cons]
    rcases ih (min a x) with h | h
    · rcases le_total a x with hax | hax
      · exact Or.inl (by rw [h, min_eq_left hax])
      · refine Or.inr ?_
        rw [h, min_eq_right hax]
        exact List.mem_cons_self x xs
    · exact Or.inr (List.mem_cons_of_mem x h)

/-- `np.amin` is a lower bound of the list. -/
theorem aminQ_le (l : List ℚ) (b : ℚ) (hb : b ∈ l) : aminQ l ≤ b := by
  cases l with
  | nil => cases hb
  | cons x xs =>
    rcases List.mem_cons.mp hb with rfl | hb
    · exact foldl_min_le_init xs b
    · exact foldl_min_le_mem xs x b hb

/-- `np.amin` of a non-empty list is attained by some element. -/
theorem aminQ_mem (l : List ℚ) (h : l ≠ []) : aminQ l ∈ l := by
  cases l with
  | nil => exact absurd rfl h
  | cons x xs =>
    show xs.foldl min x ∈ x :: xs
    rcases foldl_min_mem xs x with h2 | h2
    · rw [h2]
      exact List.mem_cons_self x xs
    · exact List.mem_cons_of_mem x h2

/-- The collision collector is empty exactly when no stored obstacle
reports a collision on the ray. -/
theorem ray_intersect_obstacles_eq_nil {σ : Type} (E : Env σ) (p0 p1 : Point) :
    ray_intersect_obstacles E p0 p1 = [] ↔
      ∀ obs ∈ E.obstacles, (ray_intersect_obstacle p0 p1 obs).collide = false := by
  unfold ray_intersect_obstacles
  rw [List.filterMap_eq_nil_iff]
  constructor
  · intro h obs hobs
    have h2 := h obs hobs
    by_cases hc : (ray_intersect_obstacle p0 p1 obs).collide
    · rw [if_pos hc] at h2
      cases h2
    · simpa using hc
  · intro h obs hobs
    rw [if_neg]
    rw [h obs hobs]
    exact fun hh => nomatch hh

/-- Claim C7: for every angle range, max range and resolution > 0,
`scan_cone` produces exactly one (angle, range) result per sampled
angle, the angles stepping by `res` across the half-open range
`[amin, amax)` (the k-th angle is `amin + k*res` and stays below
`amax`), for a total of `⌈(amax - amin)/res⌉` results; the reported
range is `max_range` when no obstacle intersects that angle's ray, and
otherwise the minimum distance from the agent position over the
collision points collected against every obstacle (it is attained by a
collected point and bounds all of them from below). -/
theorem scan_cone_spec {σ ι : Type} (M : MotionModel σ ι) (E : Env σ) (co si sqrtf : ℚ → ℚ)
    (amin amax max_range res : ℚ) (hres : 0 < res) :
    (scan_cone M E co si sqrtf amin amax max_range res).length
      = (Int.ceil ((amax - amin) / res)).toNat
    ∧ (∀ k : ℕ, k < (scan_cone M E co si sqrtf amin amax max_range res).length →
        amin + k * res < amax
        ∧ ∃ r : ℚ,
          (scan_cone M E co si sqrtf amin amax max_range res)[k]?
            = some { angle := amin + k * res, range := r }
          ∧ ((∀ obs ∈ E.obstacles,
              (ray_intersect_obstacle (agent_position M E)
                ((agent_position M E).1 + max_range * co (amin + k * res),
                 (agent_position M E).2 + max_range * si (amin + k * res)) obs).collide = false)
              → r = max_range)
          ∧ (¬(∀ obs ∈ E.obstacles,
              (ray_intersect_obstacle (agent_position M E)
                ((agent_position M E).1 + max_range * co (amin + k * res),
                 (agent_position M E).2 + max_range * si (amin + k * res)) obs).collide = false)
              → (∃ p ∈ ray_intersect_obstacles E (agent_position M E)
                    ((agent_position M E).1 + max_range * co (amin + k * res),
                     (agent_position M E).2 + max_range * si (amin + k * res)),
                  r = sqrtf ((p.1 - (agent_position M E).1) ^ 2
                    + (p.2 - (agent_position M E).2) ^ 2))
                ∧ ∀ p ∈ ray_intersect_obstacles E (agent_position M E)
                    ((agent_position M E).1 + max_range * co (amin + k * res),
                     (agent_position M E).2 + max_range * si (amin + k * res)),
                  r ≤ sqrtf ((p.1 - (agent_position M E).1) ^ 2
                    + (p.2 - (agent_position M E).2) ^ 2))) := by
  have hlen : (scan_cone M E co si sqrtf amin amax max_range res).length
      = (Int.ceil ((amax - amin) / res)).toNat := by
    unfold scan_cone arangeQ
    rw [List.length_map, List.length_map, List.length_range]
  refine ⟨hlen, ?_⟩
  intro k hk
  rw [hlen] at hk
  constructor
  · have h1 : (k : ℤ) < Int.ceil ((amax - amin) / res) := Int.lt_toNat.mp hk
    have h2 : ((k : ℤ) : ℚ) < (amax - amin) / res := Int.lt_ceil.mp h1
    have h3 : (k : ℚ) * res < amax - amin := by
      rw [← lt_div_iff₀ hres]
      push_cast at h2
      exact h2
    linarith
  · have harange : (arangeQ amin amax res)[k]? = some (amin + k * res) := by
      unfold arangeQ
      simp only [List.getElem?_map, List.getElem?_range hk]
      rfl
    have hidx : (scan_cone M E co si sqrtf amin amax max_range res)[k]?
        = some (
          let pos := agent_position M E
          let a := amin + k * res
          let rayEnd : Point := (pos.1 + max_range * co a, pos.2 + max_range * si a)
          let int_points := ray_intersect_obstacles E pos rayEnd
          if int_points.isEmpty then ({ angle := a, range := max_range } : ScanResult)
          else
            { angle := a,
              range := aminQ (int_points.map (fun p =>
                sqrtf ((p.1 - pos.1) ^ 2 + (p.2 - pos.2) ^ 2))) }) := by
      unfold scan_cone
      rw [List.getElem?_map, harange]
      rfl
    by_cases hempty : ray_intersect_obstacles E (agent_position M E)
        ((agent_position M E).1 + max_range * co (amin + k * res),
         (agent_position M E).2 + max_range * si (amin + k * res)) = []
    · refine ⟨max_range, ?_, fun _ => rfl, ?_⟩
      · rw [hidx]
        simp only [hempty, List.isEmpty_nil, if_true]
      · intro hnall
        exact absurd ((ray_intersect_obstacles_eq_nil E _ _).mp hempty) hnall
    · have hne : (ray_intersect_obstacles E (agent_position M E)
          ((agent_position M E).1 + max_range * co (amin + k * res),
           (agent_position M E).2 + max_range * si (amin + k * res))).isEmpty = false := by
        rw [List.isEmpty_eq_false]
        exact hempty
      refine ⟨aminQ ((ray_intersect_obstacles E (agent_position M E)
          ((agent_position M E).1 + max_range * co (amin + k * res),
           (agent_position M E).2 + max_range * si (amin + k * res))).map (fun p =>
            sqrtf ((p.1 - (agent_position M E).1) ^ 2
              + (p.2 - (agent_position M E).2) ^ 2))), ?_, ?_, ?_⟩
      · rw [hidx]
        simp only [hne, Bool.false_eq_true, if_false]
      · intro hall
        exact absurd ((ray_intersect_obstacles_eq_nil E _ _).mpr hall) hempty
      · intro _
        constructor
        · have hmapne : ((ray_intersect_obstacles E (agent_position M E)
              ((agent_position M E).1 + max_range * co (amin + k * res),
               (agent_position M E).2 + max_range * si (amin + k * res))).map (fun p =>
                sqrtf ((p.1 - (agent_position M E).1) ^ 2
                  + (p.2 - (agent_position M E).2) ^ 2))) ≠ [] := by
            simp only [ne_eq, List.map_eq_nil_iff]
            exact hempty
          have hmem := aminQ_mem _ hmapne
          rcases List.mem_map.mp hmem with ⟨p, hp, heq⟩
          exact ⟨p, hp, heq.symm⟩
        · intro p hp
          exact aminQ_le _ _ (List.mem_map_of_mem _ hp)

unseal Rat.add Rat.mul Rat.sub Rat.inv Nat.gcd Rat.ofScientific in
/-- Witness for C7: a concrete cone of two samples. -/
theorem scan_cone_spec_witness :
    (0 : ℚ) < 1/2
    ∧ (scan_cone (⟨fun s _ _ => s, id⟩ : MotionModel Point Unit)
        (⟨(10, 10), [⟨1, 1, -1, 3⟩], ((0 : ℚ), (0 : ℚ))⟩ : Env Point)
        (fun _ => 1) (fun _ => 0) id 0 1 5 (1/2)).length
      = (Int.ceil (((1 : ℚ) - 0) / (1/2))).toNat := by
  refine ⟨by norm_num, ?_⟩
  exact (scan_cone_spec (⟨fun s _ _ => s, id⟩ : MotionModel Point Unit)
    (⟨(10, 10), [⟨1, 1, -1, 3⟩], ((0 : ℚ), (0 : ℚ))⟩ : Env Point)
    (fun _ => 1) (fun _ => 0) id 0 1 5 (1/2) (by norm_num)).1

theorem popMin_eq_none (l : List (Cell × Cost)) : popMin l = none ↔ l = [] := by
  cases l with
  | nil => simp [popMin]
  | cons e es =>
    simp only [popMin]
    constructor
    · intro h
      split at h
      · cases h
      · split at h
        · cases h
        · cases h
    · intro h
      cases h

theorem popMin_mem (l : List (Cell × Cost)) (e : Cell × Cost) (rest : List (Cell × Cost))
    (h : popMin l = some (e, rest)) : e ∈ l := by
  induction l generalizing e rest with
  | nil => cases h
  | cons x xs ih =>
    simp only [popMin] at h
    split at h
    · have he : e = x := (congrArg Prod.fst ((Option.some.injEq _ _).mp h)).symm
      rw [he]
      exact List.mem_cons_self x xs
    · rename_i m r hxs
      split at h
      · have he : e = x := (congrArg Prod.fst ((Option.some.injEq _ _).mp h)).symm
        rw [he]
        exact List.mem_cons_self x xs
      · have he : e = m := (congrArg Prod.fst ((Option.some.injEq _ _).mp h)).symm
        rw [he]
        exact List.mem_cons_of_mem x (ih m r hxs)

theorem popMin_min (l : List (Cell × Cost)) (e : Cell × Cost) (rest : List (Cell × Cost))
    (h : popMin l = some (e, rest)) : ∀ x ∈ l, e.2 ≤ x.2 := by
  induction l generalizing e rest with
  | nil => cases h
  | cons x xs ih =>
    simp only [popMin] at h
    split at h
    · rename_i hxs
      have hnil := (popMin_eq_none xs).mp hxs
      subst hnil
      have he : e = x := (congrArg Prod.fst ((Option.some.injEq _ _).mp h)).symm
      rw [he]
      intro y hy
      rcases List.mem_cons.mp hy with rfl | hy2
      · exact le_refl _
      · cases hy2
    · rename_i m r hxs
      split at h
      · rename_i hle
        have he : e = x := (congrArg Prod.fst ((Option.some.injEq _ _).mp h)).symm
        rw [he]
        intro y hy
        rcases List.mem_cons.mp hy with rfl | hy2
        · exact le_refl _
        · exact le_trans hle (ih m r hxs y hy2)
      · rename_i hle
        have he : e = m := (congrArg Prod.fst ((Option.some.injEq _ _).mp h)).symm
        rw [he]
        intro y hy
        rcases List.mem_cons.mp hy with rfl | hy2
        · exact le_of_not_le hle
        · exact ih m r hxs y hy2

theorem popMin_cover (l : List (Cell × Cost)) (e : Cell × Cost) (rest : List (Cell × Cost))
    (h : popMin l = some (e, rest)) : ∀ x ∈ l, x = e ∨ x ∈ rest := by
  induction l generalizing e rest with
  | nil => cases h
  | cons x xs ih =>
    simp only [popMin] at h
    split at h
    · rename_i hxs
      have hnil := (popMin_eq_none xs).mp hxs
      subst hnil
      have he : e = x := (congrArg Prod.fst ((Option.some.injEq _ _).mp h)).symm
      rw [he]
      intro y hy
      rcases List.mem_cons.mp hy with rfl | hy2
      · exact Or.inl rfl
      · cases hy2
    · rename_i m r hxs
      split at h
      · have heq := (Option.some.injEq _ _).mp h
        have he : e = x := (congrArg Prod.fst heq).symm
        have hr : rest = xs := (congrArg Prod.snd heq).symm
        rw [he, hr]
        intro y hy
        rcases List.mem_cons.mp hy with rfl | hy2
        · exact Or.inl rfl
        · exact Or.inr hy2
      · have heq := (Option.some.injEq _ _).mp h
        have he : e = m := (congrArg Prod.fst heq).symm
        have hr : rest = x :: r := (congrArg Prod.snd heq).symm
        rw [he, hr]
        intro y hy
        rcases List.mem_cons.mp hy with rfl | hy2
        · exact Or.inr (List.mem_cons_self _ _)
        · rcases ih m r hxs y hy2 with h2 | h2
          · exact Or.inl h2
          · exact Or.inr (List.mem_cons_of_mem x h2)

theorem popMin_rest_sub (l : List (Cell × Cost)) (e : Cell × Cost) (rest : List (Cell × Cost))
    (h : popMin l = some (e, rest)) : ∀ x ∈ rest, x ∈ l := by
  induction l generalizing e rest with
  | nil => cases h
  | cons x xs ih =>
    simp only [popMin] at h
    split at h
    · have heq := (Option.some.injEq _ _).mp h
      have hr : rest = [] := (congrArg Prod.snd heq).symm
      rw [hr]
      intro y hy
      cases hy
    · rename_i m r hxs
      split at h
      · have heq := (Option.some.injEq _ _).mp h
        have hr : rest = xs := (congrArg Prod.snd heq).symm
        rw [hr]
        intro y hy
        exact List.mem_cons_of_mem x hy
      · have heq := (Option.some.injEq _ _).mp h
        have hr : rest = x :: r := (congrArg Prod.snd heq).symm
        rw [hr]
        intro y hy
        rcases List.mem_cons.mp hy with rfl | hy2
        · exact List.mem_cons_self _ _
        · exact List.mem_cons_of_mem x (ih m r hxs y hy2)

theorem popMin_keys_nodup (l : List (Cell × Cost)) (e : Cell × Cost)
    (rest : List (Cell × Cost)) (h : popMin l = some (e, rest))
    (hnd : (keysOf l).Nodup) : (keysOf rest).Nodup := by
  induction l generalizing e rest with
  | nil => cases h
  | cons x xs ih =>
    simp only [popMin] at h
    simp only [keysOf, List.map_cons, List.nodup_cons] at hnd
    split at h
    · have heq := (Option.some.injEq _ _).mp h
      have hr : rest = [] := (congrArg Prod.snd heq).symm
      rw [hr]
      simp [keysOf]
    · rename_i m r hxs
      split at h
      · have heq := (Option.some.injEq _ _).mp h
        have hr : rest = xs := (congrArg Prod.snd heq).symm
        rw [hr]
        exact hnd.2
      · have heq := (Option.some.injEq _ _).mp h
        have hr : rest = x :: r := (congrArg Prod.snd heq).symm
        rw [hr]
        simp only [keysOf, List.map_cons, List.nodup_cons]
        refine ⟨?_, ih m r hxs hnd.2⟩
        intro hmem
        simp only [keysOf, List.mem_map] at hmem
        rcases hmem with ⟨y, hy, hyk⟩
        exact hnd.1 (by
          simp only [keysOf, List.mem_map]
          exact ⟨y, popMin_rest_sub xs m r hxs y hy, hyk⟩)

theorem fupdate_self {β : Type} (f : Cell → β) (k : Cell) (v : β) : fupdate f k v k = v := by
  simp [fupdate]

theorem fupdate_ne {β : Type} (f : Cell → β) (k c : Cell) (v : β) (h : c ≠ k) :
    fupdate f k v c = f c := by
  simp [fupdate, h]

theorem setPriority_mem_self (l : List (Cell × Cost)) (k : Cell) (v : Cost) :
    (k, v) ∈ setPriority l k v := by
  induction l with
  | nil => exact List.mem_singleton.mpr rfl
  | cons e es ih =>
    simp only [setPriority]
    by_cases he : e.1 = k
    · rw [if_pos he]
      exact List.mem_cons_self _ _
    · rw [if_neg he]
      exact List.mem_cons_of_mem e ih

theorem setPriority_mem_of_ne (l : List (Cell × Cost)) (k : Cell) (v : Cost)
    (x : Cell × Cost) (hx : x ∈ l) (hk : x.1 ≠ k) : x ∈ setPriority l k v := by
  induction l with
  | nil => cases hx
  | cons e es ih =>
    simp only [setPriority]
    by_cases he : e.1 = k
    · rw [if_pos he]
      rcases List.mem_cons.mp hx with rfl | hx2
      · exact absurd he hk
      · exact List.mem_cons_of_mem _ hx2
    · rw [if_neg he]
      rcases List.mem_cons.mp hx with rfl | hx2
      · exact List.mem_cons_self _ _
      · exact List.mem_cons_of_mem e (ih hx2)

theorem setPriority_entries (l : List (Cell × Cost)) (k : Cell) (v : Cost)
    (hnd : (keysOf l).Nodup) (x : Cell × Cost) (hx : x ∈ setPriority l k v) :
    x = (k, v) ∨ (x ∈ l ∧ x.1 ≠ k) := by
  induction l with
  | nil =>
    simp only [setPriority] at hx
    exact Or.inl (List.mem_singleton.mp hx)
  | cons e es ih =>
    simp only [keysOf, List.map_cons, List.nodup_cons] at hnd
    simp only [setPriority] at hx
    by_cases he : e.1 = k
    · rw [if_pos he] at hx
      rcases List.mem_cons.mp hx with rfl | hx2
      · exact Or.inl rfl
      · refine Or.inr ⟨List.mem_cons_of_mem e hx2, ?_⟩
        intro hxk
        rw [← he] at hxk
        exact hnd.1 (by
          simp only [keysOf, List.mem_map]
          exact ⟨x, hx2, hxk.symm ▸ rfl⟩)
    · rw [if_neg he] at hx
      rcases List.mem_cons.mp hx with rfl | hx2
      · exact Or.inr ⟨List.mem_cons_self _ _, he⟩
      · rcases ih hnd.2 hx2 with h2 | h2
        · exact Or.inl h2
        · exact Or.inr ⟨List.mem_cons_of_mem e h2.1, h2.2⟩

theorem setPriority_keys_sup (l : List (Cell × Cost)) (k : Cell) (v : Cost) (c : Cell)
    (hc : c ∈ keysOf l) : c ∈ keysOf (setPriority l k v) := by
  induction l with
  | nil => cases hc
  | cons e es ih =>
    simp only [setPriority]
    simp only [keysOf, List.map_cons, List.mem_cons] at hc
    by_cases he : e.1 = k
    · rw [if_pos he]
      simp only [keysOf, List.map_cons, List.mem_cons]
      rcases hc with rfl | hc2
      · exact Or.inl he
      · exact Or.inr hc2
    · rw [if_neg he]
      simp only [keysOf, List.map_cons, List.mem_cons]
      rcases hc with rfl | hc2
      · exact Or.inl rfl
      · exact Or.inr (ih hc2)

theorem setPriority_key_self (l : List (Cell × Cost)) (k : Cell) (v : Cost) :
    k ∈ keysOf (setPriority l k v) := by
  simp only [keysOf, List.mem_map]
  exact ⟨(k, v), setPriority_mem_self l k v, rfl⟩

theorem setPriority_keys_sub (l : List (Cell × Cost)) (k : Cell) (v : Cost) (c : Cell)
    (hc : c ∈ keysOf (setPriority l k v)) : c = k ∨ c ∈ keysOf l := by
  induction l with
  | nil =>
    simp only [setPriority, keysOf, List.map_cons, List.map_nil, List.mem_singleton] at hc
    exact Or.inl hc
  | cons e es ih =>
    simp only [setPriority] at hc
    by_cases he : e.1 = k
    · rw [if_pos he] at hc
      simp only [keysOf, List.map_cons, List.mem_cons] at hc
      rcases hc with rfl | hc2
      · exact Or.inl rfl
      · exact Or.inr (by
          simp only [keysOf, List.map_cons, List.mem_cons]
          exact Or.inr hc2)
    · rw [if_neg he] at hc
      simp only [keysOf, List.map_cons, List.mem_cons] at hc
      rcases hc with rfl | hc2
      · exact Or.inr (by simp [keysOf])
      · rcases ih hc2 with h2 | h2
        · exact Or.inl h2
        · exact Or.inr (by
            simp only [keysOf, List.map_cons, List.mem_cons]
            exact Or.inr h2)

theorem setPriority_nodup (l : List (Cell × Cost)) (k : Cell) (v : Cost)
    (hnd : (keysOf l).Nodup) : (keysOf (setPriority l k v)).Nodup := by
  induction l with
  | nil => simp [setPriority, keysOf]
  | cons e es ih =>
    simp only [keysOf, List.map_cons, List.nodup_cons] at hnd
    simp only [setPriority]
    by_cases he : e.1 = k
    · rw [if_pos he]
      simp only [keysOf, List.map_cons, List.nodup_cons]
      exact ⟨by rw [← he]; exact hnd.1, hnd.2⟩
    · rw [if_neg he]
      simp only [keysOf, List.map_cons, List.nodup_cons]
      refine ⟨?_, ih hnd.2⟩
      intro hmem
      rcases setPriority_keys_sub es k v e.1 hmem with h2 | h2
      · exact he h2
      · exact hnd.1 h2

theorem edgeCost_le (adj : Cell → List (Cell × Cost)) (u : Cell) (e : Cell × Cost)
    (he : e ∈ adj u) : edgeCost adj u e.1 ≤ e.2 := by
  unfold edgeCost
  have hmem : e ∈ (adj u).filter (fun x => x.1 = e.1) := by
    rw [List.mem_filter]
    exact ⟨he, by simp⟩
  generalize (adj u).filter (fun x => x.1 = e.1) = l at hmem
  induction l with
  | nil => cases hmem
  | cons x xs ih =>
    simp only [List.foldr_cons]
    rcases List.mem_cons.mp hmem with rfl | h2
    · exact min_le_left _ _
    · exact le_trans (min_le_right _ _) (ih h2)

theorem edgeCost_attained (adj : Cell → List (Cell × Cost)) (u v : Cell) :
    edgeCost adj u v = ⊤ ∨ ∃ e ∈ adj u, e.1 = v ∧ e.2 = edgeCost adj u v := by
  unfold edgeCost
  have hsub : ∀ x ∈ (adj u).filter (fun x => x.1 = v), x ∈ adj u ∧ x.1 = v := by
    intro x hx
    rw [List.mem_filter] at hx
    exact ⟨hx.1, by simpa using hx.2⟩
  generalize (adj u).filter (fun x => x.1 = v) = l at hsub
  induction l with
  | nil => exact Or.inl rfl
  | cons x xs ih =>
    simp only [List.foldr_cons]
    rcases ih (fun y hy => hsub y (List.mem_cons_of_mem x hy)) with h2 | h2
    · rw [h2]
      rcases hsub x (List.mem_cons_self _ _) with ⟨hx1, hx2⟩
      refine Or.inr ⟨x, hx1, hx2, ?_⟩
      rw [min_eq_left le_top]
    · rcases h2 with ⟨e, he1, he2, he3⟩
      rcases le_total x.2 (xs.foldr (fun e acc => min e.2 acc) ⊤) with hle | hle
      · rcases hsub x (List.mem_cons_self _ _) with ⟨hx1, hx2⟩
        refine Or.inr ⟨x, hx1, hx2, ?_⟩
        rw [min_eq_left hle]
      · refine Or.inr ⟨e, he1, he2, ?_⟩
        rw [min_eq_right hle]
        exact he3

theorem edgeCost_nonneg (adj : Cell → List (Cell × Cost)) (u v : Cell)
    (hc : ∀ e ∈ adj u, 0 ≤ e.2) : 0 ≤ edgeCost adj u v := by
  rcases edgeCost_attained adj u v with h | ⟨e, he, _, hev⟩
  · rw [h]
    exact le_top
  · rw [← hev]
    exact hc e he

theorem cellCost_nonneg (adj : Cell → List (Cell × Cost)) (hc : ∀ u, ∀ e ∈ adj u, 0 ≤ e.2) :
    ∀ (l : List Cell) (v : Cell), 0 ≤ cellCost adj v l := by
  intro l
  induction l with
  | nil =>
    intro v
    exact le_refl 0
  | cons x xs ih =>
    intro v
    exact add_nonneg (edgeCost_nonneg adj v x (hc v)) (ih x)

theorem cellPathCost_nonneg (adj : Cell → List (Cell × Cost))
    (hc : ∀ u, ∀ e ∈ adj u, 0 ≤ e.2) (l : List Cell) : 0 ≤ cellPathCost adj l := by
  cases l with
  | nil => exact le_refl 0
  | cons x xs => exact cellCost_nonneg adj hc xs x

/-- The escort invariant along an arbitrary cell sequence: whenever a
node of the sequence carries a correct-bound label and has left the open
list, its successor's label is bounded by the accumulated prefix cost. -/
def PathInv (adj : Cell → List (Cell × Cost)) (st : AState) : Cell → Cost → List Cell → Prop
  | _, _, [] => True
  | u, cu, v :: r =>
    ((st.g u ≤ cu ∧ u ∉ keysOf st.OPEN) → st.g v ≤ cu + edgeCost adj u v)
    ∧ PathInv adj st v (cu + edgeCost adj u v) r

/-- The state invariants of the A* loop (for inflation `eps = 1`):
open-list priorities agree with `g + h`, open keys are distinct, labels
are nonnegative, the start label stays 0, and every predecessor link
states a relaxation that went through together with a real edge. -/
structure SInv (adj : Cell → List (Cell × Cost)) (heur : Cell → ℚ) (target start : Cell)
    (st : AState) : Prop where
  hpri : ∀ e ∈ st.OPEN, e.2 = st.g e.1 + ((1 * heur (e.1 - target) : ℚ) : Cost)
  hnodup : (keysOf st.OPEN).Nodup
  hgnn : ∀ c, 0 ≤ st.g c
  hg0 : st.g start ≤ 0
  hpredQ : ∀ x u, st.pred x = some u → st.g u + edgeCost adj u x ≤ st.g x
  hpredE : ∀ x u, st.pred x = some u → ∃ c, (x, c) ∈ adj u

/-- One relaxation step: invariant preservation and the facts the escort
argument needs (the parent's label is untouched, labels only decrease, a
changed label is an open key, open keys persist, and the child's label
ends below `g parent + cost`). -/
theorem relaxChild_facts (adj : Cell → List (Cell × Cost)) (heur : Cell → ℚ)
    (target start u : Cell) (st : AState) (e : Cell × Cost)
    (hS : SInv adj heur target start st) (he2 : 0 ≤ e.2) (hentry : e ∈ adj u) :
    SInv adj heur target start (relaxChild 1 heur target u st e)
    ∧ (relaxChild 1 heur target u st e).g u = st.g u
    ∧ (∀ x, (relaxChild 1 heur target u st e).g x ≤ st.g x)
    ∧ (∀ x, (relaxChild 1 heur target u st e).g x ≠ st.g x →
        x ∈ keysOf (relaxChild 1 heur target u st e).OPEN)
    ∧ (∀ c, c ∈ keysOf st.OPEN → c ∈ keysOf (relaxChild 1 heur target u st e).OPEN)
    ∧ (relaxChild 1 heur target u st e).g e.1 ≤ st.g u + e.2 := by
  unfold relaxChild
  by_cases hlt : st.g u + e.2 < st.g e.1
  · rw [if_pos hlt]
    have hne : u ≠ e.1 := by
      intro hu
      rw [← hu] at hlt
      exact absurd hlt (not_lt.mpr (le_add_of_nonneg_right he2))
    refine ⟨?_, ?_, ?_, ?_, ?_, ?_⟩
    · refine ⟨?_, ?_, ?_, ?_, ?_, ?_⟩
      · intro x hx
        rcases setPriority_entries st.OPEN e.1 _ hS.hnodup x hx with rfl | ⟨hx2, hx3⟩
        · show _ = fupdate st.g e.1 (st.g u + e.2) e.1 + _
          rw [fupdate_self]
        · show _ = fupdate st.g e.1 (st.g u + e.2) x.1 + _
          rw [fupdate_ne _ _ _ _ hx3]
          exact hS.hpri x hx2
      · exact setPriority_nodup _ _ _ hS.hnodup
      · intro c
        show 0 ≤ fupdate st.g e.1 (st.g u + e.2) c
        by_cases hc : c = e.1
        · rw [hc, fupdate_self]
          exact add_nonneg (hS.hgnn u) he2
        · rw [fupdate_ne _ _ _ _ hc]
          exact hS.hgnn c
      · show fupdate st.g e.1 (st.g u + e.2) start ≤ 0
        by_cases hc : start = e.1
        · rw [hc, fupdate_self]
          exact le_trans hlt.le (hc ▸ hS.hg0)
        · rw [fupdate_ne _ _ _ _ hc]
          exact hS.hg0
      · intro x w hx
        have hx2 : fupdate st.pred e.1 (some u) x = some w := hx
        show fupdate st.g e.1 (st.g u + e.2) w + edgeCost adj w x
          ≤ fupdate st.g e.1 (st.g u + e.2) x
        by_cases hc : x = e.1
        · rw [hc, fupdate_self] at hx2
          have hw : w = u := (Option.some.injEq _ _).mp hx2.symm
          subst hw
          rw [hc, fupdate_self, fupdate_ne _ _ _ _ hne]
          exact add_le_add_left (edgeCost_le adj w e hentry) _
        · rw [fupdate_ne _ _ _ _ hc] at hx2
          rw [fupdate_ne _ _ _ _ hc]
          by_cases hw : w = e.1
          · have hq := hS.hpredQ x w hx2
            rw [hw] at hq
            rw [hw, fupdate_self]
            exact le_trans (add_le_add_right hlt.le _) hq
          · rw [fupdate_ne _ _ _ _ hw]
            exact hS.hpredQ x w hx2
      · intro x w hx
        have hx2 : fupdate st.pred e.1 (some u) x = some w := hx
        by_cases hc : x = e.1
        · rw [hc, fupdate_self] at hx2
          have hw : w = u := (Option.some.injEq _ _).mp hx2.symm
          subst hw
          refine ⟨e.2, ?_⟩
          rw [hc]
          exact hentry
        · rw [fupdate_ne _ _ _ _ hc] at hx2
          exact hS.hpredE x w hx2
    · show fupdate st.g e.1 _ u = st.g u
      rw [fupdate_ne _ _ _ _ hne]
    · intro x
      by_cases hc : x = e.1
      · rw [hc]
        show fupdate st.g e.1 _ e.1 ≤ _
        rw [fupdate_self]
        exact hlt.le
      · show fupdate st.g e.1 _ x ≤ _
        rw [fupdate_ne _ _ _ _ hc]
    · intro x hx
      by_cases hc : x = e.1
      · rw [hc]
        exact setPriority_key_self _ _ _
      · exfalso
        exact hx (fupdate_ne _ _ _ _ hc)
    · intro c hcm
      exact setPriority_keys_sup _ _ _ _ hcm
    · show fupdate st.g e.1 _ e.1 ≤ _
      rw [fupdate_self]
  · rw [if_neg hlt]
    exact ⟨hS, rfl, fun _ => le_refl _, fun x hx => absurd rfl hx, fun c hc => hc,
      not_lt.mp hlt⟩

/-- Folding the relaxation over a list of candidates (the expansion of a
popped parent `u`): invariants persist, the parent's label is untouched,
labels only decrease, changed labels sit in the open list, open keys
persist, and every candidate's label ends below `g u + cost`. -/
theorem expand_facts (adj : Cell → List (Cell × Cost)) (heur : Cell → ℚ)
    (target start u : Cell) :
    ∀ (l : List (Cell × Cost)) (st : AState), SInv adj heur target start st →
    (∀ e ∈ l, 0 ≤ e.2 ∧ e ∈ adj u) →
    SInv adj heur target start (l.foldl (relaxChild 1 heur target u) st)
    ∧ (l.foldl (relaxChild 1 heur target u) st).g u = st.g u
    ∧ (∀ x, (l.foldl (relaxChild 1 heur target u) st).g x ≤ st.g x)
    ∧ (∀ x, (l.foldl (relaxChild 1 heur target u) st).g x ≠ st.g x →
        x ∈ keysOf (l.foldl (relaxChild 1 heur target u) st).OPEN)
    ∧ (∀ c, c ∈ keysOf st.OPEN → c ∈ keysOf (l.foldl (relaxChild 1 heur target u) st).OPEN)
    ∧ (∀ e ∈ l, (l.foldl (relaxChild 1 heur target u) st).g e.1 ≤ st.g u + e.2) := by
  intro l
  induction l with
  | nil =>
    intro st hS hl
    exact ⟨hS, rfl, fun _ => le_refl _, fun x hx => absurd rfl hx, fun c hc => hc,
      fun e he => absurd he (List.not_mem_nil e)⟩
  | cons e es ih =>
    intro st hS hl
    have he := hl e (List.mem_cons_self e es)
    have hstep := relaxChild_facts adj heur target start u st e hS he.1 he.2
    have hrec := ih (relaxChild 1 heur target u st e) hstep.1
      (fun x hx => hl x (List.mem_cons_of_mem e hx))
    simp only [List.foldl_cons]
    refine ⟨hrec.1, ?_, ?_, ?_, ?_, ?_⟩
    · rw [hrec.2.1, hstep.2.1]
    · intro x
      exact le_trans (hrec.2.2.1 x) (hstep.2.2.1 x)
    · intro x hx
      by_cases hx1 : (es.foldl (relaxChild 1 heur target u) (relaxChild 1 heur target u st e)).g x
          = (relaxChild 1 heur target u st e).g x
      · have hx2 : (relaxChild 1 heur target u st e).g x ≠ st.g x := by
          intro hq
          exact hx (hx1.trans hq)
        exact hrec.2.2.2.2.1 x (hstep.2.2.2.1 x hx2)
      · exact hrec.2.2.2.1 x hx1
    · intro c hc
      exact hrec.2.2.2.2.1 c (hstep.2.2.2.2.1 c hc)
    · intro x hx
      rcases List.mem_cons.mp hx with rfl | hx2
      · exact le_trans (hrec.2.2.1 x.1) (hstep.2.2.2.2.2)
      · rw [← hstep.2.1]
        exact hrec.2.2.2.2.2 x hx2

/-- The escort invariant survives a loop step, given the step facts:
labels only decrease, the popped parent's label is untouched, a changed
label is an open key, every cell's label ends below `g u + edge`, and a
cell absent from the new open list is the popped parent or was already
absent. -/
theorem PathInv_step (adj : Cell → List (Cell × Cost)) (st st2 : AState) (u : Cell)
    (hA : ∀ x, st2.g x ≤ st.g x)
    (hB : st2.g u = st.g u)
    (hD : ∀ x, st2.g x ≠ st.g x → x ∈ keysOf st2.OPEN)
    (hE : ∀ v, st2.g v ≤ st.g u + edgeCost adj u v)
    (hF : ∀ x, x ∉ keysOf st2.OPEN → x = u ∨ x ∉ keysOf st.OPEN) :
    ∀ (l : List Cell) (a : Cell) (ca : Cost), PathInv adj st a ca l → PathInv adj st2 a ca l := by
  intro l
  induction l with
  | nil =>
    intro a ca _
    exact trivial
  | cons v r ih =>
    intro a ca hP
    refine ⟨?_, ih v (ca + edgeCost adj a v) hP.2⟩
    rintro ⟨hga, hnk⟩
    by_cases hau : a = u
    · have hgu : st.g u ≤ ca := by
        rw [← hB, ← hau]
        exact hga
      have h1 := le_trans (hE v) (add_le_add_right hgu _)
      rw [← hau] at h1
      exact h1
    · rcases hF a hnk with rfl | hnk0
      · exact absurd rfl hau
      · have hgeq : st2.g a = st.g a := by
          by_contra hne
          exact hnk (hD a hne)
        have h2 := hP.1 ⟨hgeq ▸ hga, hnk0⟩
        exact le_trans (hA v) h2

/-- One full loop step (pop a non-target parent, expand it) preserves
the state invariants and the escort invariant for every sequence. -/
theorem astar_step_pres (nf : BinMap → Cell → List (Cell × Cost)) (m : BinMap)
    (heur : Cell → ℚ) (target start : Cell) (st : AState) (u : Cell) (p : Cost)
    (rest : List (Cell × Cost))
    (hS : SInv (nf m) heur target start st)
    (hPath : ∀ l, PathInv (nf m) st start 0 l)
    (hpop : popMin st.OPEN = some ((u, p), rest))
    (hc : ∀ w, ∀ e ∈ nf m w, 0 ≤ e.2) :
    SInv (nf m) heur target start
        ((nf m u).foldl (relaxChild 1 heur target u) { st with OPEN := rest })
    ∧ ∀ l, PathInv (nf m)
        ((nf m u).foldl (relaxChild 1 heur target u) { st with OPEN := rest }) start 0 l := by
  have hS1 : SInv (nf m) heur target start { st with OPEN := rest } := by
    refine ⟨?_, ?_, hS.hgnn, hS.hg0, hS.hpredQ, hS.hpredE⟩
    · intro e he
      exact hS.hpri e (popMin_rest_sub st.OPEN (u, p) rest hpop e he)
    · exact popMin_keys_nodup st.OPEN (u, p) rest hpop hS.hnodup
  have hexp := expand_facts (nf m) heur target start u (nf m u) { st with OPEN := rest } hS1
    (fun e he => ⟨hc u e he, he⟩)
  refine ⟨hexp.1, ?_⟩
  intro l
  refine PathInv_step (nf m) st
    ((nf m u).foldl (relaxChild 1 heur target u) { st with OPEN := rest }) u
    hexp.2.2.1 hexp.2.1 hexp.2.2.2.1 ?_ ?_ l start 0 (hPath l)
  · intro v
    rcases edgeCost_attained (nf m) u v with hea | ⟨e, he1, he2, he3⟩
    · rw [hea]
      rw [add_top]
      exact le_top
    · rw [← he3, ← he2]
      exact hexp.2.2.2.2.2 e he1
  · intro x hx
    by_cases hxu : x = u
    · exact Or.inl hxu
    · refine Or.inr ?_
      intro hxk
      rcases List.mem_map.mp hxk with ⟨ex, hex, hexk⟩
      rcases popMin_cover st.OPEN (u, p) rest hpop ex hex with rfl | hex2
      · exact hxu hexk.symm
      · exact hx (hexp.2.2.2.2.1 x (by
          simp only [keysOf, List.mem_map]
          exact ⟨ex, hex2, hexk⟩))

/-- The escort argument: given the escort invariant along a sequence
ending at the target and a correct-bound anchor, either the target's
label is already below the sequence cost, or some open node carries a
correct-bound label whose remaining sequence is at least as cheap. -/
theorem escort (adj : Cell → List (Cell × Cost)) (st : AState) (target : Cell) :
    ∀ (l : List Cell) (v : Cell) (cv : Cost), PathInv adj st v cv l → st.g v ≤ cv →
      (v :: l).getLast? = some target →
      st.g target ≤ cv + cellCost adj v l
      ∨ ∃ w cw lw, w ∈ keysOf st.OPEN ∧ st.g w ≤ cw
          ∧ (w :: lw).getLast? = some target
          ∧ cw + cellCost adj w lw ≤ cv + cellCost adj v l := by
  intro l
  induction l with
  | nil =>
    intro v cv _ hg hlast
    have hv : v = target := by
      simpa using hlast
    refine Or.inl ?_
    rw [← hv]
    show st.g v ≤ cv + cellCost adj v []
    rw [show cellCost adj v [] = 0 from rfl, add_zero]
    exact hg
  | cons x r ih =>
    intro v cv hP hg hlast
    by_cases hv : v ∈ keysOf st.OPEN
    · exact Or.inr ⟨v, cv, x :: r, hv, hg, hlast, le_refl _⟩
    · have hgx : st.g x ≤ cv + edgeCost adj v x := hP.1 ⟨hg, hv⟩
      have hlast2 : (x :: r).getLast? = some target := by
        rw [List.getLast?_cons_cons] at hlast
        exact hlast
      rcases ih x (cv + edgeCost adj v x) hP.2 hgx hlast2 with h | ⟨w, cw, lw, h1, h2, h3, h4⟩
      · refine Or.inl ?_
        rw [show cellCost adj v (x :: r) = edgeCost adj v x + cellCost adj x r from rfl,
          ← add_assoc]
        exact h
      · refine Or.inr ⟨w, cw, lw, h1, h2, h3, ?_⟩
        rw [show cellCost adj v (x :: r) = edgeCost adj v x + cellCost adj x r from rfl,
          ← add_assoc]
        exact h4

/-- The A* loop at inflation 1 with an admissible nonnegative heuristic:
a successful run leaves the target label below the cost of every cell
sequence from start to target, the start label at 0, labels nonnegative,
and the predecessor links cost-correct. -/
theorem astarLoop_correct (nf : BinMap → Cell → List (Cell × Cost)) (m : BinMap)
    (heur : Cell → ℚ) (target start : Cell)
    (hc : ∀ w, ∀ e ∈ nf m w, 0 ≤ e.2)
    (hadm : ∀ (v : Cell) (l : List Cell), l.head? = some v → l.getLast? = some target →
      ((heur (v - target) : ℚ) : Cost) ≤ cellPathCost (nf m) l)
    (hh : ∀ v, 0 ≤ heur v) :
    ∀ (fuel : ℕ) (st stF : AState),
      SInv (nf m) heur target start st → (∀ l, PathInv (nf m) st start 0 l) →
      astarLoop nf m 1 heur target fuel st = some (true, stF) →
      (∀ l : List Cell, l.head? = some start → l.getLast? = some target →
        stF.g target ≤ cellPathCost (nf m) l)
      ∧ stF.g start ≤ 0
      ∧ (∀ c, 0 ≤ stF.g c)
      ∧ (∀ x w, stF.pred x = some w → stF.g w + edgeCost (nf m) w x ≤ stF.g x)
      ∧ (∀ x w, stF.pred x = some w → ∃ c2, (x, c2) ∈ nf m w) := by
  intro fuel
  induction fuel with
  | zero =>
    intro st stF _ _ h
    cases h
  | succ fuel ih =>
    intro st stF hS hPath hrun
    simp only [astarLoop] at hrun
    split at hrun
    · exact absurd (congrArg Prod.fst ((Option.some.injEq _ _).mp hrun)) (by simp)
    · rename_i e rest hpop
      split at hrun
      · rename_i he
        have hstF : stF = { st with OPEN := rest } :=
          (congrArg Prod.snd ((Option.some.injEq _ _).mp hrun)).symm
        have hgF : stF.g = st.g := by rw [hstF]
        have hpF : stF.pred = st.pred := by rw [hstF]
        refine ⟨?_, by rw [hgF]; exact hS.hg0, by rw [hgF]; exact hS.hgnn,
          by rw [hgF, hpF]; exact hS.hpredQ, by rw [hpF]; exact hS.hpredE⟩
        intro l hhead hlast
        rw [hgF]
        cases l with
        | nil => cases hhead
        | cons v l2 =>
          have hv : v = start := by simpa using hhead
          rw [hv] at hlast ⊢
          have hhn : ∀ z : Cell, (0 : Cost) ≤ ((1 * heur z : ℚ) : Cost) := by
            intro z
            have h0 : ((0 : ℚ) : Cost) ≤ ((1 * heur z : ℚ) : Cost) :=
              WithTop.coe_le_coe.mpr (by rw [one_mul]; exact hh z)
            simpa using h0
          rcases escort (nf m) st target l2 start 0 (hPath l2) hS.hg0 hlast with
            h | ⟨w, cw, lw, hw, hgw, hlw, hbound⟩
          · rw [zero_add] at h
            exact h
          · rcases List.mem_map.mp hw with ⟨ew, hew, hewk⟩
            have hple : e.2 ≤ ew.2 := popMin_min st.OPEN e rest hpop ew hew
            have hpri_e := hS.hpri e (popMin_mem st.OPEN e rest hpop)
            have hpri_w := hS.hpri ew hew
            have h1 : st.g target ≤ e.2 := by
              rw [hpri_e, he]
              exact le_add_of_nonneg_right (hhn _)
            have h2 : ew.2 = st.g w + ((1 * heur (w - target) : ℚ) : Cost) := by
              rw [hpri_w, hewk]
            have hadm_w : ((heur (w - target) : ℚ) : Cost) ≤ cellCost (nf m) w lw := by
              have h5 := hadm w (w :: lw) (by simp) hlw
              exact h5
            have h3 : st.g w + ((1 * heur (w - target) : ℚ) : Cost)
                ≤ cw + cellCost (nf m) w lw := by
              refine add_le_add hgw ?_
              rw [one_mul]
              exact hadm_w
            have hchain : st.g target ≤ cw + cellCost (nf m) w lw := by
              calc st.g target ≤ e.2 := h1
                _ ≤ ew.2 := hple
                _ = st.g w + ((1 * heur (w - target) : ℚ) : Cost) := h2
                _ ≤ cw + cellCost (nf m) w lw := h3
            have hfin := le_trans hchain hbound
            rw [zero_add] at hfin
            exact hfin
      · rename_i he
        have hstep := astar_step_pres nf m heur target start st e.1 e.2 rest hS hPath hpop hc
        exact ih _ stF hstep.1 hstep.2 hrun

/-- The escort invariant holds in the initial search state: every cell
other than `start` still carries the label `⊤`. -/
theorem PathInv_init (adj : Cell → List (Cell × Cost)) (heur : Cell → ℚ)
    (target start : Cell) :
    ∀ (l : List Cell) (a : Cell) (ca : Cost),
      PathInv adj
        { g := fun c => if c = start then (0 : Cost) else ⊤,
          OPEN := [(start, (0 : Cost) + ((1 * heur (start - target) : ℚ) : Cost))],
          pred := fun _ => none } a ca l := by
  intro l
  induction l with
  | nil =>
    intro a ca
    exact trivial
  | cons v r ih =>
    intro a ca
    refine ⟨?_, ih v _⟩
    rintro ⟨hga, hnk⟩
    by_cases ha : a = start
    · exfalso
      exact hnk (by simp [keysOf, ha])
    · have hga2 : (⊤ : Cost) ≤ ca := by
        have : (if a = start then (0 : Cost) else ⊤) = ⊤ := if_neg ha
        rw [← this]
        exact hga
      have hca : ca = ⊤ := top_le_iff.mp hga2
      rw [hca, top_add]
      exact le_top

/-- The state invariants hold in the initial search state. -/
theorem SInv_init (adj : Cell → List (Cell × Cost)) (heur : Cell → ℚ)
    (target start : Cell) :
    SInv adj heur target start
      { g := fun c => if c = start then (0 : Cost) else ⊤,
        OPEN := [(start, (0 : Cost) + ((1 * heur (start - target) : ℚ) : Cost))],
        pred := fun _ => none } := by
  refine ⟨?_, by simp [keysOf], ?_, by simp, ?_, ?_⟩
  · intro e he
    rcases List.mem_singleton.mp he with rfl
    simp
  · intro c
    by_cases hc : c = start
    · simp [hc]
    · show (0 : Cost) ≤ if c = start then (0 : Cost) else ⊤
      rw [if_neg hc]
      exact le_top
  · intro x u hx
    cases hx
  · intro x u hx
    cases hx

/-- Shape of a successful backtrack: the returned list runs from the
queried cell down to `start`, linked by predecessor pointers. -/
theorem backtrack_props (pr : Cell → Option Cell) (start : Cell) :
    ∀ (fuel : ℕ) (pos : Cell) (l : List Cell), backtrack pr start fuel pos = some l →
      l.head? = some pos ∧ l.getLast? = some start
        ∧ List.Chain' (fun a b => pr a = some b) l := by
  intro fuel
  induction fuel with
  | zero =>
    intro pos l h
    cases h
  | succ fuel ih =>
    intro pos l h
    simp only [backtrack] at h
    by_cases hps : pos = start
    · rw [if_pos hps] at h
      have hl : l = [pos] := ((Option.some.injEq _ _).mp h).symm
      rw [hl]
      exact ⟨rfl, by rw [hps]; rfl, List.chain'_singleton pos⟩
    · rw [if_neg hps] at h
      split at h
      · cases h
      · rename_i q hq
        rcases hbq : backtrack pr start fuel q with _ | l2
        · rw [hbq] at h
          cases h
        · rw [hbq] at h
          have h2 : some (pos :: l2) = some l := h
          have hl : l = pos :: l2 := ((Option.some.injEq _ _).mp h2).symm
          rcases ih q l2 hbq with ⟨ih1, ih2, ih3⟩
          rw [hl]
          cases l2 with
          | nil => cases ih1
          | cons z zs =>
            have hz : z = q := by simpa using ih1
            refine ⟨rfl, ?_, ?_⟩
            · rw [List.getLast?_cons_cons]
              exact ih2
            · refine List.chain'_cons.mpr ⟨?_, ih3⟩
              rw [hz]
              exact hq

/-- Appending a final cell adds the final edge cost. -/
theorem cellCost_append (adj : Cell → List (Cell × Cost)) :
    ∀ (xs : List Cell) (a z y : Cell), (a :: xs).getLast? = some z →
      cellCost adj a (xs ++ [y]) = cellCost adj a xs + edgeCost adj z y := by
  intro xs
  induction xs with
  | nil =>
    intro a z y hz
    have ha : a = z := by simpa using hz
    rw [ha]
    show edgeCost adj z y + 0 = 0 + edgeCost adj z y
    rw [zero_add, add_zero]
  | cons x r ih =>
    intro a z y hz
    rw [List.getLast?_cons_cons] at hz
    show edgeCost adj a x + cellCost adj x (r ++ [y])
      = edgeCost adj a x + cellCost adj x r + edgeCost adj z y
    rw [ih x z y hz, add_assoc]

/-- The cost of the reversed backtracked path telescopes below the
final label of the queried cell. -/
theorem backtrack_cost (adj : Cell → List (Cell × Cost)) (stG : Cell → Cost)
    (pr : Cell → Option Cell) (start : Cell)
    (hQ : ∀ x w, pr x = some w → stG w + edgeCost adj w x ≤ stG x) :
    ∀ (fuel : ℕ) (pos : Cell) (l : List Cell), backtrack pr start fuel pos = some l →
      stG start + cellPathCost adj l.reverse ≤ stG pos := by
  intro fuel
  induction fuel with
  | zero =>
    intro pos l h
    cases h
  | succ fuel ih =>
    intro pos l h
    simp only [backtrack] at h
    by_cases hps : pos = start
    · rw [if_pos hps] at h
      have hl : l = [pos] := ((Option.some.injEq _ _).mp h).symm
      rw [hl, hps]
      show stG start + cellPathCost adj [start] ≤ stG start
      rw [show cellPathCost adj [start] = 0 from rfl, add_zero]
    · rw [if_neg hps] at h
      split at h
      · cases h
      · rename_i q hq
        rcases hbq : backtrack pr start fuel q with _ | l2
        · rw [hbq] at h
          cases h
        · rw [hbq] at h
          have h2 : some (pos :: l2) = some l := h
          have hl : l = pos :: l2 := ((Option.some.injEq _ _).mp h2).symm
          rcases backtrack_props pr start fuel q l2 hbq with ⟨ih1, _, _⟩
          have hrev : l2.reverse.getLast? = some q := by
            rw [List.getLast?_reverse]
            exact ih1
          cases hrl2 : l2.reverse with
          | nil =>
            rw [hrl2] at hrev
            cases hrev
          | cons z zs =>
            have hcost : cellPathCost adj (l2.reverse ++ [pos])
                = cellPathCost adj l2.reverse + edgeCost adj q pos := by
              rw [hrl2]
              show cellCost adj z (zs ++ [pos]) = cellCost adj z zs + edgeCost adj q pos
              refine cellCost_append adj zs z q pos ?_
              rw [← hrl2]
              exact hrev
            rw [hl, List.reverse_cons, hcost, ← add_assoc]
            exact le_trans (add_le_add_right (ih q l2 hbq) _) (hQ pos q hq)

/-- Claim C6: with inflation factor `eps = 1`, an admissible nonnegative
heuristic, and an obstacle-free grid, a successful `_plan_algo` returns
a path that runs from the start cell to the target cell along edges of
the injected neighbor-expansion strategy, and whose total cost under the
grid metric induced by that strategy's edge costs is minimal: it is
bounded by the cost of every cell sequence from start to target (so it
equals the exact shortest-path cost).  Stated for any strategy whose
edge costs are nonnegative, which covers the source's norm-cost
strategies. -/
theorem astar_optimal (nf : BinMap → Cell → List (Cell × Cost)) (m : BinMap) (eps : ℚ)
    (heur : Cell → ℚ) (start target : Cell) (fuel : ℕ) (retPath : List Cell)
    (heps : eps = 1)
    (hfree : ∀ c : Cell, m.val c ≠ GridStatus.OBSTACLE)
    (hc : ∀ w, ∀ e ∈ nf m w, 0 ≤ e.2)
    (hadm : ∀ (v : Cell) (l : List Cell), l.head? = some v → l.getLast? = some target →
      ((heur (v - target) : ℚ) : Cost) ≤ cellPathCost (nf m) l)
    (hh : ∀ v, 0 ≤ heur v)
    (hrun : plan_algo nf m eps heur start target fuel = some (true, retPath)) :
    retPath.head? = some start
    ∧ retPath.getLast? = some target
    ∧ List.Chain' (fun a b => ∃ c2, (b, c2) ∈ nf m a) retPath
    ∧ ∀ l : List Cell, l.head? = some start → l.getLast? = some target →
        cellPathCost (nf m) retPath ≤ cellPathCost (nf m) l := by
  subst heps
  unfold plan_algo at hrun
  by_cases hst : start = target
  · rw [if_pos hst] at hrun
    have hl : retPath = [start] :=
      (congrArg Prod.snd ((Option.some.injEq _ _).mp hrun)).symm
    subst hl
    refine ⟨rfl, by rw [hst]; rfl, List.chain'_singleton start, ?_⟩
    intro l _ _
    rw [show cellPathCost (nf m) [start] = 0 from rfl]
    exact cellPathCost_nonneg (nf m) hc l
  · rw [if_neg hst] at hrun
    split at hrun
    · cases hrun
    · rename_i done stA hloop
      split at hrun
      · rename_i hdone
        split at hrun
        · cases hrun
        · rename_i bl hbt
          have hl : retPath = bl.reverse :=
            (congrArg Prod.snd ((Option.some.injEq _ _).mp hrun)).symm
          subst hl
          rw [hdone] at hloop
          have hcorr := astarLoop_correct nf m heur target start hc hadm hh fuel _ stA
            (SInv_init (nf m) heur target start)
            (fun l => PathInv_init (nf m) heur target start l start 0) hloop
          rcases backtrack_props stA.pred start fuel target bl hbt with ⟨hb1, hb2, hb3⟩
          refine ⟨?_, ?_, ?_, ?_⟩
          · rw [List.head?_reverse]
            exact hb2
          · rw [List.getLast?_reverse]
            exact hb1
          · rw [List.chain'_reverse]
            refine List.Chain'.imp ?_ hb3
            intro a b hab
            exact hcorr.2.2.2.2 a b hab
          · intro l hhead hlast
            have hg0 : stA.g start = 0 := le_antisymm hcorr.2.1 (hcorr.2.2.1 start)
            have hbc := backtrack_cost (nf m) stA.g stA.pred start hcorr.2.2.2.1 fuel
              target bl hbt
            rw [hg0, zero_add] at hbc
            exact le_trans hbc (hcorr.1 l hhead hlast)
      · rename_i hdone
        exact absurd (congrArg Prod.fst ((Option.some.injEq _ _).mp hrun)) (by simp)

/-- Edge costs produced by `get_n_grid_neighbors` are nonnegative
whenever the injected norm is. -/
theorem get_n_grid_neighbors_cost_nonneg (norm2 : ℤ → ℤ → ℚ)
    (hn : ∀ i j, 0 ≤ norm2 i j) (m : BinMap) (v : Cell) (n : ℕ) :
    ∀ e ∈ get_n_grid_neighbors norm2 m v n, 0 ≤ e.2 := by
  intro e he
  unfold get_n_grid_neighbors at he
  rw [List.mem_flatMap] at he
  rcases he with ⟨i, _, he⟩
  rw [List.mem_flatMap] at he
  rcases he with ⟨j, _, he⟩
  rw [List.mem_ite_nil_right] at he
  rcases List.mem_singleton.mp he.2 with rfl
  show (0 : Cost) ≤ if _ then ((norm2 i j : ℚ) : Cost) else ⊤
  split
  · have h0 : ((0 : ℚ) : Cost) ≤ ((norm2 i j : ℚ) : Cost) := WithTop.coe_le_coe.mpr (hn i j)
    rw [WithTop.coe_zero] at h0
    exact h0
  · exact le_top

unseal Rat.add Rat.mul Rat.sub Rat.inv Nat.gcd in
/-- Witness for C6: on a concrete obstacle-free 1×2 grid with the zero
heuristic and integer-squared norm costs, the planned path [(0,0),(0,1)]
is a minimal-cost start-target sequence. -/
theorem astar_optimal_witness :
    ([((0 : ℤ), (0 : ℤ)), (0, 1)] : List Cell).head? = some (0, 0)
    ∧ ([((0 : ℤ), (0 : ℤ)), (0, 1)] : List Cell).getLast? = some (0, 1)
    ∧ List.Chain' (fun a b => ∃ c2,
        (b, c2) ∈ (fun m v => get_n_grid_neighbors (fun i j => ((i * i + j * j : ℤ) : ℚ)) m v 3)
          (⟨1, 2, fun _ => GridStatus.EMPTY⟩ : BinMap) a) [((0 : ℤ), (0 : ℤ)), (0, 1)]
    ∧ ∀ l : List Cell, l.head? = some (0, 0) → l.getLast? = some (0, 1) →
        cellPathCost ((fun m v => get_n_grid_neighbors (fun i j => ((i * i + j * j : ℤ) : ℚ)) m v 3)
            (⟨1, 2, fun _ => GridStatus.EMPTY⟩ : BinMap)) [((0 : ℤ), (0 : ℤ)), (0, 1)]
          ≤ cellPathCost ((fun m v => get_n_grid_neighbors (fun i j => ((i * i + j * j : ℤ) : ℚ)) m v 3)
            (⟨1, 2, fun _ => GridStatus.EMPTY⟩ : BinMap)) l := by
  have hcW : ∀ w, ∀ e ∈ (fun m v => get_n_grid_neighbors (fun i j => ((i * i + j * j : ℤ) : ℚ)) m v 3)
      (⟨1, 2, fun _ => GridStatus.EMPTY⟩ : BinMap) w, 0 ≤ e.2 := by
    intro w e he
    refine get_n_grid_neighbors_cost_nonneg _ ?_ _ w 3 e he
    intro i j
    exact_mod_cast add_nonneg (mul_self_nonneg i) (mul_self_nonneg j)
  exact astar_optimal
    (fun m v => get_n_grid_neighbors (fun i j => ((i * i + j * j : ℤ) : ℚ)) m v 3)
    (⟨1, 2, fun _ => GridStatus.EMPTY⟩ : BinMap) 1 (fun _ => 0) (0, 0) (0, 1) 6
    [((0 : ℤ), (0 : ℤ)), (0, 1)] rfl
    (fun c h => nomatch h)
    hcW
    (fun v l _ _ => by
      show ((0 : ℚ) : Cost) ≤ _
      rw [WithTop.coe_zero]
      exact cellPathCost_nonneg _ hcW l)
    (fun v => le_refl 0)
    (by decide)
